import Mathlib

/-!
Verification of the DESCHRAMBLER core (ancestral chromosome reconstruction).

The development shallowly embeds the two computational stages of the
repository:

* `code/inferAdjProb.c` — the adjacency-probability inference engine:
  the canonical index folding (`map`, `pam`), the one-branch transition
  probability (`prob`), the recursive subtree pre-likelihood
  (`preLikelihood`), the per-index normalization step of `normalize`,
  and the tree re-rooting pass (`modifyTree` / `rerootTree` /
  `modifyBranchLen`).

* `code/deschrambler.cpp` — the greedy chain assembler: `Edge`,
  `insertEdge`, `mergeLists` and the `main` processing loop, including
  the construction of the weighted edge table from the adjacency-score
  input and the used-ends registry.

Machine doubles are embedded as real numbers where transcendental
functions occur (the inference engine) and as rationals in the assembler
and the re-rooting pass, where the program only moves, compares and
copies the values, so the embedding is exact.
-/

namespace Deschrambler

/-! Part 1: the canonical index space of `inferAdjProb.c`.

The globals of the C file are `A = 0`, `T` (total element count of the
reference genome), `Z = 2*T + 1`, `N = Z + 1`.  All functions below take
`T` as an explicit parameter and write `A` and `Z` out as `0` and
`2*T + 1`. -/

/-- Embedding of `map` (inferAdjProb.c:348-354): fold an index of the
canonical space onto the index of the reversed element end.  `A = 0` and
`Z = 2*T+1` are swapped, and a non-sentinel index moves by `T`. -/
def map (T : ℕ) (i : ℕ) : ℕ :=
  if i = 0 then 2 * T + 1
  else if i = 2 * T + 1 then 0
  else if i ≤ T then i + T
  else i - T

/-- Embedding of `pam` (inferAdjProb.c:356-360): unfold a canonical index
back to a signed element reference. -/
def pam (T : ℕ) (i : ℕ) : ℤ :=
  if i = 2 * T + 1 then 0
  else if i ≤ T then (i : ℤ)
  else -((i : ℤ) - (T : ℤ))

/-- Folding of a signed element reference into the canonical index space,
as performed on negative indices by `Set`, `PSet`, `SSet` and `updatePS`
(inferAdjProb.c:370-395): a negative reference `-e` is stored at
`map(e)`, a non-negative one at itself. -/
def foldRef (T : ℕ) (x : ℤ) : ℕ :=
  if x < 0 then map T x.natAbs else x.toNat

/-! Part 2: the phylogenetic tree of `inferAdjProb.c` and the likelihood
recursion.

A `struct phyloTree` node carries a branch parameter `distalpha` and up
to two children (`child[LEFT]`, `child[RIGHT]`), each possibly `NULL`.
A leaf (both children `NULL`) carries observation data: in the C code
the bit matrix `b->P` and the end-membership marker `b->there` of the
`nodeList` entry found by `findTreeNode(anc->name)`; leaf names are
unique in a parsed tree, so the entry is the leaf's own, and the
embedding attaches the bit matrix (as its boolean content, the value
`Val(lf->P, i, j)` of the bit-packed array) and the marker directly to
the node.  The four constructors enumerate the four `NULL` patterns of
the two child pointers. -/

/-- Tree node of the inference stage: `tip` is a leaf (both children
`NULL`), `uniL`/`uniR` have only a left/right child, `bin` has both.
Every constructor carries `distalpha`, the leaf observation matrix `P`
and the end-membership marker `there` (the latter two are only read at
leaves, mirroring the single C struct used for all nodes). -/
inductive PhyloN : Type where
  | tip (distalpha : ℝ) (P : ℕ → ℕ → Bool) (there : ℕ → Bool) : PhyloN
  | uniL (distalpha : ℝ) (P : ℕ → ℕ → Bool) (there : ℕ → Bool) (l : PhyloN) : PhyloN
  | uniR (distalpha : ℝ) (P : ℕ → ℕ → Bool) (there : ℕ → Bool) (r : PhyloN) : PhyloN
  | bin (distalpha : ℝ) (P : ℕ → ℕ → Bool) (there : ℕ → Bool) (l r : PhyloN) : PhyloN

/-- The `distalpha` field of a node. -/
def PhyloN.distalpha : PhyloN → ℝ
  | .tip d _ _ => d
  | .uniL d _ _ _ => d
  | .uniR d _ _ _ => d
  | .bin d _ _ _ _ => d

/-- Every branch parameter of the tree is nonnegative — the
admissibility condition `distalpha >= 0` on the parsed tree; branch
lengths of exactly `0` are admissible (and are produced by the
re-rooting pass itself). -/
def PhyloN.nonnegBranches : PhyloN → Prop
  | .tip d _ _ => 0 ≤ d
  | .uniL d _ _ l => 0 ≤ d ∧ l.nonnegBranches
  | .uniR d _ _ r => 0 ≤ d ∧ r.nonnegBranches
  | .bin d _ _ l r => 0 ≤ d ∧ l.nonnegBranches ∧ r.nonnegBranches

/-- Embedding of `prob` (inferAdjProb.c:601-613): the one-branch
transition probability between states `i` and `s` across the branch
above `son`, with `n = (double)T` and `ttaa = son->distalpha`. -/
noncomputable def prob (T : ℕ) (son : PhyloN) (i s : ℕ) : ℝ :=
  let n : ℝ := (T : ℝ)
  let ttaa : ℝ := son.distalpha
  if i = s then
    1 / (2 * n - 1) + (2 * n - 2) / (2 * n - 1) * Real.exp (-(2 * n - 1) * ttaa)
  else
    1 / (2 * n - 1) - 1 / (2 * n - 1) * Real.exp (-(2 * n - 1) * ttaa)

/-- The transition probability exactly as the specification words it:
under a continuous-time symmetric substitution model with `2T - 1`
equally likely alternative states, `p = 1/(2T-1) +
(2T-2)/(2T-1)*e^(-(2T-1)*distalpha)` when `i = j`, and `p = 1/(2T-1) -
1/(2T-1)*e^(-(2T-1)*distalpha)` otherwise.  Written from the spec text
for comparison with `prob`. -/
noncomputable def specTransitionProb (T : ℕ) (distalpha : ℝ) (i j : ℕ) : ℝ :=
  if i = j then
    1 / (2 * (T : ℝ) - 1) + (2 * (T : ℝ) - 2) / (2 * (T : ℝ) - 1) *
      Real.exp (-(2 * (T : ℝ) - 1) * distalpha)
  else
    1 / (2 * (T : ℝ) - 1) - 1 / (2 * (T : ℝ) - 1) *
      Real.exp (-(2 * (T : ℝ) - 1) * distalpha)

/-- One child's factor of the internal-node case of `preLikelihood`
(inferAdjProb.c:699-718): a `NULL` child contributes `1`, an existing
child contributes `Σ_{s=A}^{Z-1} [Val(DPPI,s,j)] · getLP(child,i,s) ·
getLL(child,s,j)`.  The memoization wrappers `getLP` and `getLL`
(inferAdjProb.c:626-676) cache the pure functions `prob` and
`preLikelihood` under write-once insert-if-absent keys, so they are the
functions themselves. -/
noncomputable def childFactor (T : ℕ) (DPPI : ℕ → ℕ → Bool)
    (pre : PhyloN → ℕ → ℕ → ℝ) (c : Option PhyloN) (i j : ℕ) : ℝ :=
  match c with
  | none => 1
  | some child =>
      ∑ s ∈ Finset.range (2 * T + 1),
        if DPPI s j then prob T child i s * pre child s j else 0

/-- Embedding of `preLikelihood` (inferAdjProb.c:678-723).  At a leaf
(`isLeaf`), if the end-membership marker `there[j]` is set the observed
bit `Val(lf->P, i, j)` is returned, else `1`.  At an internal node the
product `left * right` of the two child factors is returned (the
`log`/`exp` round-trip of lines 720-721 computes the same product and is
discarded by the `return` of line 722). -/
noncomputable def preLikelihood (T : ℕ) (DPPI : ℕ → ℕ → Bool) :
    PhyloN → ℕ → ℕ → ℝ
  | .tip _ P there, i, j =>
      if there j then (if P i j then 1 else 0) else 1
  | .uniL _ _ _ l, i, j =>
      (∑ s ∈ Finset.range (2 * T + 1),
        if DPPI s j then prob T l i s * preLikelihood T DPPI l s j else 0) * 1
  | .uniR _ _ _ r, i, j =>
      1 * (∑ s ∈ Finset.range (2 * T + 1),
        if DPPI s j then prob T r i s * preLikelihood T DPPI r s j else 0)
  | .bin _ _ _ l r, i, j =>
      (∑ s ∈ Finset.range (2 * T + 1),
        if DPPI s j then prob T l i s * preLikelihood T DPPI l s j else 0) *
      (∑ s ∈ Finset.range (2 * T + 1),
        if DPPI s j then prob T r i s * preLikelihood T DPPI r s j else 0)

/-- The pre-likelihood as the specification words it: at a leaf, `1`
when the leaf's data does not constrain column `j`, otherwise the
observed bit; at an internal node, the product over existing children of
`Σ_s [compatible(s,j)] · branchProb(child,i,s) · preLikelihood(child,s,j)`
with a missing child's factor defaulting to `1`, the states `s` ranging
over the element-end states `0..2T` of the canonical space and the
compatible ones selected by the compatibility matrix.  Written from the
spec text for comparison with `preLikelihood`. -/
noncomputable def specPreLikelihood (T : ℕ) (DPPI : ℕ → ℕ → Bool) :
    PhyloN → ℕ → ℕ → ℝ
  | .tip _ P there, i, j =>
      if there j then (if P i j then 1 else 0) else 1
  | .uniL _ _ _ l, i, j =>
      ∑ s ∈ (Finset.range (2 * T + 1)).filter (fun s => DPPI s j),
        prob T l i s * specPreLikelihood T DPPI l s j
  | .uniR _ _ _ r, i, j =>
      ∑ s ∈ (Finset.range (2 * T + 1)).filter (fun s => DPPI s j),
        prob T r i s * specPreLikelihood T DPPI r s j
  | .bin _ _ _ l r, i, j =>
      (∑ s ∈ (Finset.range (2 * T + 1)).filter (fun s => DPPI s j),
        prob T l i s * specPreLikelihood T DPPI l s j) *
      (∑ s ∈ (Finset.range (2 * T + 1)).filter (fun s => DPPI s j),
        prob T r i s * specPreLikelihood T DPPI r s j)

/-! Part 3: the per-index normalization of `normalize`
(inferAdjProb.c:725-753).

The predecessor-likelihood table `PLH` is a sparse matrix: for each
column index `i` of the loop `for (i = A+1; i < Z; i++)`, the linked
list hanging off `PLH+i` holds the entries `(pt->x, pt->val)` of that
index.  `normalize` sums the values of the list into `psum` and stores
`pt->val / psum` into the posterior table `PPP` for each entry.  A
column is embedded as the list of its stored entries. -/

/-- One column's pass of `normalize` (inferAdjProb.c:729-736): divide
every stored entry of the column by the column sum. -/
noncomputable def normalize (col : List (ℕ × ℝ)) : List (ℕ × ℝ) :=
  let psum : ℝ := (col.map (fun p => p.2)).sum
  col.map (fun p => (p.1, p.2 / psum))

/-! Part 4: tree re-rooting, `modifyTree` / `rerootTree` /
`modifyBranchLen` (inferAdjProb.c:804-862).

The pointer surgery of the C code rotates the path from the designated
ancestral node `Ances` up to the structural root.  The embedding
represents that path as a zipper: the `Ances` subtree plus, for each
node on the path from `Ances`'s parent up to the root, which side the
path descends through (`side`, `true` for `child[RIGHT]`), the node's
name and `distalpha`, and the subtree hanging off its other child
pointer.  `plug` reconstitutes the original tree from the zipper;
`modifyTree` produces the re-rooted tree.  Branch parameters are only
copied and zeroed by this pass, never combined arithmetically, so the
doubles are embedded as rationals exactly. -/

/-- Tree node of the re-rooting pass: name, `distalpha` and the two
child pointers (`NULL` embedded as `none`). -/
inductive RTree : Type where
  | mk (name : String) (distalpha : ℚ) (left right : Option RTree) : RTree

/-- The `distalpha` field of a node. -/
def RTree.distalpha : RTree → ℚ
  | .mk _ d _ _ => d

/-- Overwrite the `distalpha` field of a node (the assignments of
`modifyBranchLen` and of `Ances->distalpha = 0`). -/
def setRootD : RTree → ℚ → RTree
  | .mk nm _ l r, x => .mk nm x l r

/-- One step of the path from `Ances`'s parent up to the structural
root: the side the path child hung on (`true` for `child[RIGHT]`), the
node's name and `distalpha`, and the sibling subtree on the node's other
child pointer. -/
structure CtxEntry where
  side : Bool
  name : String
  distalpha : ℚ
  sibling : Option RTree

/-- Reconstitute the original tree from the `Ances` subtree and its
path-to-root context (the state of the pointers before `modifyTree`
runs). -/
def plug : RTree → List CtxEntry → RTree
  | t, [] => t
  | t, c :: ctx =>
      plug (if c.side then RTree.mk c.name c.distalpha c.sibling (some t)
            else RTree.mk c.name c.distalpha (some t) c.sibling) ctx

/-- One step of `rerootTree` (inferAdjProb.c:804-824): the former parent
`p` is hung off the freed child pointer of `v`, choosing `child[RIGHT]`
when it is `NULL` and `child[LEFT]` otherwise (lines 813-816).  When the
step runs, `v`'s path child has already been detached, so its children
are exactly its sibling subtree. -/
def attach (c : CtxEntry) (p : Option RTree) : RTree :=
  if c.side then RTree.mk c.name c.distalpha c.sibling p
  else
    match c.sibling with
    | none => RTree.mk c.name c.distalpha none p
    | some s => RTree.mk c.name c.distalpha p (some s)

/-- The full `rerootTree` walk: the path nodes re-hang one under the
other, from `Ances`'s former parent (new chain root) up to the former
structural root (now deepest). -/
def rebuild : List CtxEntry → Option RTree
  | [] => none
  | c :: ctx => some (attach c (rebuild ctx))

/-- Embedding of `modifyBranchLen` (inferAdjProb.c:826-831) Part of
`modifyTree`: walking up from `Ances`, every path node receives the
original `distalpha` of its path child (`Ances`'s own value seeds the
walk as `d0`). -/
def shiftD (d0 : ℚ) : List CtxEntry → List CtxEntry
  | [] => []
  | c :: ctx => { c with distalpha := d0 } :: shiftD c.distalpha ctx

/-- Embedding of `modifyTree` (inferAdjProb.c:833-862): shift the branch
parameters up the path (`modifyBranchLen`), zero `Ances->distalpha`,
rotate the path (`rerootTree`) and hang both `Ances` and the rotated
path under a fresh zero-length root named `NEWROOT`, with `Ances` kept
on the side it occupied under its former parent.  `main` only invokes
this when `Ances` is not already the root, i.e. when the context is
nonempty; on an empty context the tree is returned unchanged. -/
def modifyTree (ances : RTree) (ctx : List CtxEntry) : RTree :=
  match ctx with
  | [] => ances
  | c1 :: rest =>
      let sctx := shiftD ances.distalpha (c1 :: rest)
      let ances1 := setRootD ances 0
      let chain := rebuild sctx
      if c1.side then RTree.mk ("NEWROOT") 0 chain (some ances1)
      else RTree.mk ("NEWROOT") 0 (some ances1) chain

/-- Multiset of the `distalpha` values of all nodes of a tree. -/
def distM : RTree → Multiset ℚ
  | .mk _ d none none => {d}
  | .mk _ d (some l) none => d ::ₘ distM l
  | .mk _ d none (some r) => d ::ₘ distM r
  | .mk _ d (some l) (some r) => d ::ₘ (distM l + distM r)

/-- Multiset of the names of the leaves (both children `NULL`) of a
tree. -/
def leafM : RTree → Multiset String
  | .mk nm _ none none => {nm}
  | .mk _ _ (some l) none => leafM l
  | .mk _ _ none (some r) => leafM r
  | .mk _ _ (some l) (some r) => leafM l + leafM r

/-! Part 5: the greedy chain assembler, `deschrambler.cpp`.

The embedding covers the whole of `main`: reading the adjacency score
table into the `std::map` `mapAdjScores` (sorted by `Edge::operator<`),
building `mapWeights`, sorting the edge vector by weight, and the greedy
loop over `insertEdge` / `mergeLists` with the used-ends registry
`mapUsed`.  Scores and weights are only compared and copied, never
combined, so doubles are embedded as rationals exactly.  `std::sort`
with the weight-only comparator `cmp` is embedded as a stable insertion
sort (the algorithm libstdc++ applies to the final partitions); ties
between equal weights therefore keep the order of the vector, which is
the key order of `mapWeights`. -/

/-- Embedding of class `Edge` (deschrambler.cpp:25-68): two block ids
with orientations, a weight and an evidence score (`score2` is never
assigned in `main` and is omitted). -/
structure Edge where
  bid1 : ℤ
  dir1 : ℤ
  bid2 : ℤ
  dir2 : ℤ
  score1 : ℚ
  weight : ℚ
deriving DecidableEq

instance : Inhabited Edge := ⟨⟨0, 0, 0, 0, 0, 0⟩⟩

/-- The `Edge` constructor of the C++ class: scores and weight start at
zero. -/
def Edge.make (b1 d1 b2 d2 : ℤ) : Edge := ⟨b1, d1, b2, d2, 0, 0⟩

/-- Embedding of `Edge::reverse` (deschrambler.cpp:42-54): swap the two
ends and flip each direction (`1` becomes `-1`, anything else becomes
`1`). -/
def Edge.reverse (e : Edge) : Edge :=
  { e with
    bid1 := e.bid2, bid2 := e.bid1,
    dir1 := if e.dir2 = 1 then -1 else 1,
    dir2 := if e.dir1 = 1 then -1 else 1 }

/-- Embedding of `Edge::operator<` (deschrambler.cpp:35-40): the strict
weak order of the `std::map` keys, lexicographic on
`(bid1, dir1, bid2, dir2)` and blind to scores and weight. -/
def Edge.lt (a b : Edge) : Prop :=
  if a.bid1 = b.bid1 ∧ a.dir1 = b.dir1 ∧ a.bid2 = b.bid2 then a.dir2 < b.dir2
  else if a.bid1 = b.bid1 ∧ a.dir1 = b.dir1 then a.bid2 < b.bid2
  else if a.bid1 = b.bid1 then a.dir1 < b.dir1
  else a.bid1 < b.bid1

instance (a b : Edge) : Decidable (Edge.lt a b) := by
  unfold Edge.lt; infer_instance

/-- Key equivalence of the `std::map` comparator: neither `a < b` nor
`b < a`, i.e. equality of the four id/direction fields. -/
def Edge.keyEq (a b : Edge) : Prop :=
  a.bid1 = b.bid1 ∧ a.dir1 = b.dir1 ∧ a.bid2 = b.bid2 ∧ a.dir2 = b.dir2

instance (a b : Edge) : Decidable (Edge.keyEq a b) := by
  unfold Edge.keyEq; infer_instance

/-- `std::map<Edge,double>` assignment `m[k] = v`: insert into the
key-sorted association list, or overwrite the value of an existing
key. -/
def mapAssign (m : List (Edge × ℚ)) (k : Edge) (v : ℚ) : List (Edge × ℚ) :=
  match m with
  | [] => [(k, v)]
  | (k1, v1) :: rest =>
      if Edge.lt k k1 then (k, v) :: (k1, v1) :: rest
      else if Edge.keyEq k k1 then (k1, v) :: rest
      else (k1, v1) :: mapAssign rest k v

/-- `std::map<Edge,double>::find`, by key equivalence. -/
def mapFind (m : List (Edge × ℚ)) (k : Edge) : Option ℚ :=
  match m with
  | [] => none
  | (k1, v1) :: rest => if Edge.keyEq k k1 then some v1 else mapFind rest k

/-- One line of the score file read by `main` (deschrambler.cpp:291-305):
signed block ids and a score.  The two canonical forms `bpf` and `bpr`
are stored with the same score. -/
def readLine (m : List (Edge × ℚ)) (line : ℤ × ℤ × ℚ) : List (Edge × ℚ) :=
  let bid1 := line.1
  let bid2 := line.2.1
  let adjscore := line.2.2
  let bindex1 : ℤ := |bid1|
  let bindex2 : ℤ := |bid2|
  let intdir1 : ℤ := if bid1 < 0 then -1 else 1
  let intdir2 : ℤ := if bid2 < 0 then -1 else 1
  let bpf := Edge.make bindex1 intdir1 bindex2 intdir2
  let bpr := Edge.make bindex2 (-intdir2) bindex1 (-intdir1)
  mapAssign (mapAssign m bpf adjscore) bpr adjscore

/-- The `mapAdjScores` table after the read loop of `main`. -/
def buildAdjScores (input : List (ℤ × ℤ × ℚ)) : List (Edge × ℚ) :=
  input.foldl readLine []

/-- `numblocks`: the largest absolute block id seen in the input. -/
def numblocksOf (input : List (ℤ × ℤ × ℚ)) : ℕ :=
  input.foldl (fun m line => max m (max line.1.natAbs line.2.1.natAbs)) 0

/-- Embedding of `compute_weight` (deschrambler.cpp:70-80): the score of
the given oriented pair, `0` when absent. -/
def compute_weight (bid1 dir1 bid2 dir2 : ℤ) (mapscore1 : List (Edge × ℚ)) : ℚ :=
  match mapFind mapscore1 (Edge.make bid1 dir1 bid2 dir2) with
  | some v => v
  | none => 0

/-- The four direction combinations tried by the weight loop of `main`
(deschrambler.cpp:311-324), in program order. -/
def dirCombos : List (ℤ × ℤ) := [(1, 1), (1, -1), (-1, 1), (-1, -1)]

/-- The `mapWeights` table of `main` (deschrambler.cpp:308-324): for
every ordered pair of distinct block ids `0..numblocks` and every
direction combination, the positive scores become weighted edges. -/
def buildWeights (adj : List (Edge × ℚ)) (numblocks : ℕ) : List (Edge × ℚ) :=
  (List.range (numblocks + 1)).foldl (fun m i =>
    (List.range (numblocks + 1)).foldl (fun m j =>
      if i = j then m
      else dirCombos.foldl (fun m dd =>
        let w := compute_weight (i : ℤ) dd.1 (j : ℤ) dd.2 adj
        if w > 0 then mapAssign m (Edge.make (i : ℤ) dd.1 (j : ℤ) dd.2) w
        else m) m) m) []

/-- Embedding of the comparator `cmp` (deschrambler.cpp:88-91). -/
abbrev cmp (p1 p2 : Edge × ℚ) : Prop := p1.2 > p2.2

/-- Descending insertion step: a new element walks past every earlier
element whose weight is at least its own. -/
def insertSorted (p : Edge × ℚ) : List (Edge × ℚ) → List (Edge × ℚ)
  | [] => [p]
  | q :: l => if cmp p q then p :: q :: l else q :: insertSorted p l

/-- The `sort(vecEdges.begin(), vecEdges.end(), cmp)` call of `main`
(deschrambler.cpp:328).  `std::sort` promises only a `cmp`-sorted
permutation of the vector and no stability; which permutation is
produced for equal-weight edges is implementation-defined.  To keep the
downstream pipeline (`assemble`) an executable function, one concrete
comparator-correct outcome is fixed here: an insertion sort (the
routine libstdc++'s `std::sort` itself runs on ranges of at most 16
elements).  The assembler invariant theorems do not depend on which
permutation this is, and the edge-order theorem quantifies over every
`cmp`-sorted permutation instead of relying on this model. -/
def sortEdges (l : List (Edge × ℚ)) : List (Edge × ℚ) :=
  l.foldl (fun acc p => insertSorted p acc) []

/-- The sorted weighted edge vector processed by the greedy loop. -/
def vecEdgesOf (input : List (ℤ × ℤ × ℚ)) : List (Edge × ℚ) :=
  sortEdges (buildWeights (buildAdjScores input) (numblocksOf input))

/-- Result enum of `insertEdge` (deschrambler.cpp:15). -/
inductive Res : Type where
  | SUCCESS : Res
  | FAIL : Res
  | CYCLE : Res
deriving DecidableEq

/-- `mapUsed[k] = 1`: the used-ends registry keeps a set of signed keys. -/
def addUsed (m : List ℤ) (k : ℤ) : List ℤ := if k ∈ m then m else k :: m

/-- `le.front()` of a chain. -/
def frontE (le : List Edge) : Edge := le.headI

/-- `le.back()` of a chain. -/
def backE : List Edge → Edge
  | [] => default
  | [e] => e
  | _ :: rest => backE rest

/-- Embedding of `insertEdge` (deschrambler.cpp:93-156).  The four
extension cases are tried in program order; each either rejects (cycle
check, sentinel check) leaving every argument untouched, or prepends or
appends the (possibly reversed) edge and registers the consumed ends in
`mapUsed`.  The result carries the updated chain, edge and registry. -/
def insertEdge (le : List Edge) (e : Edge) (mapUsed : List ℤ) :
    Res × List Edge × Edge × List ℤ :=
  let fe := frontE le
  let be := backE le
  if fe.bid1 = e.bid1 ∧ fe.dir1 ≠ e.dir1 then
    if be.bid2 = e.bid2 ∧ be.dir2 ≠ e.dir2 then (.CYCLE, le, e, mapUsed)
    else
      let e1 := e.reverse
      let m1 := addUsed (addUsed mapUsed fe.bid1) (-fe.bid1)
      let m2 := if e1.dir1 = 1 then addUsed m1 (-e1.bid1) else addUsed m1 e1.bid1
      (.SUCCESS, e1 :: le, e1, m2)
  else if fe.bid1 = e.bid2 ∧ fe.dir1 = e.dir2 then
    if fe.bid1 = 0 then (.FAIL, le, e, mapUsed)
    else if be.bid2 = e.bid1 ∧ be.dir2 = e.dir1 then (.CYCLE, le, e, mapUsed)
    else
      let m1 := addUsed (addUsed mapUsed fe.bid1) (-fe.bid1)
      let m2 := if e.dir1 = 1 then addUsed m1 (-e.bid1) else addUsed m1 e.bid1
      (.SUCCESS, e :: le, e, m2)
  else if be.bid2 = e.bid1 ∧ be.dir2 = e.dir1 then
    if be.bid2 = 0 then (.FAIL, le, e, mapUsed)
    else if fe.bid1 = e.bid2 ∧ fe.dir1 = e.dir2 then (.CYCLE, le, e, mapUsed)
    else
      let m1 := addUsed (addUsed mapUsed be.bid2) (-be.bid2)
      let m2 := if e.dir2 = 1 then addUsed m1 e.bid2 else addUsed m1 (-e.bid2)
      (.SUCCESS, le ++ [e], e, m2)
  else if be.bid2 = e.bid2 ∧ be.dir2 ≠ e.dir2 then
    if fe.bid1 = e.bid1 ∧ fe.dir1 ≠ e.dir1 then (.CYCLE, le, e, mapUsed)
    else
      let e1 := e.reverse
      let m1 := addUsed (addUsed mapUsed be.bid2) (-be.bid2)
      let m2 := if e1.dir2 = 1 then addUsed m1 e1.bid2 else addUsed m1 (-e1.bid2)
      (.SUCCESS, le ++ [e1], e1, m2)
  else (.FAIL, le, e, mapUsed)

/-- `mapClasses.find(j)` on the association list of chains. -/
def lookupClass (m : List (ℕ × List Edge)) (j : ℕ) : Option (List Edge) :=
  match m with
  | [] => none
  | (k, le) :: rest => if k = j then some le else lookupClass rest j

/-- `mapClasses.erase(j)`. -/
def eraseClass (m : List (ℕ × List Edge)) (j : ℕ) : List (ℕ × List Edge) :=
  m.filter (fun p => p.1 ≠ j)

/-- Store chain `le` under every entry keyed `cid` (the chain `le` of
the C loop is a reference into `mapClasses`, so its mutation is a store
at its key). -/
def updateClass (m : List (ℕ × List Edge)) (cid : ℕ) (le : List Edge) :
    List (ℕ × List Edge) :=
  m.map (fun p => if p.1 = cid then (cid, le) else p)

/-- One iteration of the `mergeLists` scan (deschrambler.cpp:215-269):
for class id `j = jj + 1` other than `clsid`, when that chain's open end
matches the growing chain's open end (four cases, program order) and the
cycle-guard disjunction allows it, splice the chain on (reversed when
needed, matching the `push_front`/`push_back` loops) and erase it.  The
state threads the growing chain and the class table. -/
def mergeStep (clsid : ℕ) (st : List Edge × List (ℕ × List Edge)) (jj : ℕ) :
    List Edge × List (ℕ × List Edge) :=
  let j := jj + 1
  if j = clsid then st
  else
    match lookupClass st.2 j with
    | none => st
    | some le2 =>
        let le1 := st.1
        let e1f := frontE le1
        let e1b := backE le1
        let e2f := frontE le2
        let e2b := backE le2
        if e1f.bid1 = e2f.bid1 ∧ e1f.dir1 ≠ e2f.dir1 then
          if e1b.bid2 = 0 ∨ e2b.bid2 = 0 ∨ e1b.bid2 ≠ e2b.bid2 then
            ((le2.map Edge.reverse).reverse ++ le1, eraseClass st.2 j)
          else st
        else if e1f.bid1 = e2b.bid2 ∧ e1f.dir1 = e2b.dir2 then
          if e1f.bid1 ≠ 0 ∧
              (e1b.bid2 = 0 ∨ e2f.bid1 = 0 ∨ e1b.bid2 ≠ e2f.bid1) then
            (le2 ++ le1, eraseClass st.2 j)
          else st
        else if e1b.bid2 = e2f.bid1 ∧ e1b.dir2 = e2f.dir1 then
          if e1b.bid2 ≠ 0 ∧
              (e1f.bid1 = 0 ∨ e2b.bid2 = 0 ∨ e1f.bid1 ≠ e2b.bid2) then
            (le1 ++ le2, eraseClass st.2 j)
          else st
        else if e1b.bid2 = e2b.bid2 ∧ e1b.dir2 ≠ e2b.dir2 then
          if e1f.bid1 = 0 ∨ e2f.bid1 = 0 ∨ e1f.bid1 ≠ e2f.bid1 then
            (le1 ++ (le2.map Edge.reverse).reverse, eraseClass st.2 j)
          else st
        else st

/-- Embedding of `mergeLists` (deschrambler.cpp:208-270): scan class ids
`1..clscnt` in order, skipping `clsid`, applying `mergeStep` to each. -/
def mergeLists (clscnt : ℕ) (clsid : ℕ) (le : List Edge)
    (mapClasses : List (ℕ × List Edge)) : List Edge × List (ℕ × List Edge) :=
  (List.range clscnt).foldl (mergeStep clsid) (le, mapClasses)

/-- State of the greedy loop of `main`: the used-ends registry, the
chain table and the class counter. -/
structure AsmState where
  mapUsed : List ℤ
  mapClasses : List (ℕ × List Edge)
  clscnt : ℕ
deriving DecidableEq

/-- The inner scan of the greedy loop (deschrambler.cpp:360-368): try
`insertEdge` on every chain in class order; stop at the first `SUCCESS`
or `CYCLE` (a `FAIL` leaves everything unchanged and the scan
continues). -/
def scanChains (e : Edge) (used : List ℤ) :
    List (ℕ × List Edge) → Option (ℕ × Res × List Edge × Edge × List ℤ)
  | [] => none
  | (cid, le) :: rest =>
      let r := insertEdge le e used
      if r.1 = Res.FAIL then scanChains e used rest
      else some (cid, r.1, r.2.1, r.2.2.1, r.2.2.2)

/-- One iteration of the greedy loop of `main`
(deschrambler.cpp:337-384): set the weight and score of the edge, skip
it below the weight threshold, skip it when one of its non-sentinel ends
is already registered, otherwise offer it to every chain (merging on
success) or open a new singleton chain with its ends registered. -/
def processEdge (gMIN_WEIGHT : ℚ) (adj : List (Edge × ℚ)) (st : AsmState)
    (p : Edge × ℚ) : AsmState :=
  let e0 := { p.1 with weight := p.2 }
  let e := match mapFind adj e0 with
           | some s => { e0 with score1 := s }
           | none => e0
  if e.weight < gMIN_WEIGHT then st
  else if e.bid1 ≠ 0 ∧
      (if e.dir1 = 1 then -e.bid1 ∈ st.mapUsed else e.bid1 ∈ st.mapUsed) then st
  else if e.bid2 ≠ 0 ∧
      (if e.dir2 = 1 then e.bid2 ∈ st.mapUsed else -e.bid2 ∈ st.mapUsed) then st
  else
    match scanChains e st.mapUsed st.mapClasses with
    | some (cid, res, le1, _, used1) =>
        if res = Res.SUCCESS then
          let classes1 := updateClass st.mapClasses cid le1
          let merged := mergeLists st.clscnt cid le1 classes1
          { st with mapUsed := used1,
                    mapClasses := updateClass merged.2 cid merged.1 }
        else st
    | none =>
        let used1 := if e.bid1 ≠ 0 then
            (if e.dir1 = 1 then addUsed st.mapUsed (-e.bid1)
             else addUsed st.mapUsed e.bid1)
          else st.mapUsed
        let used2 := if e.bid2 ≠ 0 then
            (if e.dir2 = 1 then addUsed used1 e.bid2
             else addUsed used1 (-e.bid2))
          else used1
        { mapUsed := used2,
          mapClasses := st.mapClasses ++ [(st.clscnt + 1, [e])],
          clscnt := st.clscnt + 1 }

/-- The whole of `main` (deschrambler.cpp:272-389) up to `printLists`:
read the score table, build and sort the weighted edges, run the greedy
loop. -/
def assemble (gMIN_WEIGHT : ℚ) (input : List (ℤ × ℤ × ℚ)) : AsmState :=
  (vecEdgesOf input).foldl
    (processEdge gMIN_WEIGHT (buildAdjScores input)) ⟨[], [], 0⟩

/-- The signed key under which `main` checks and registers the open end
at the `bid1` side of an edge (deschrambler.cpp:347-351 and 375-378). -/
def key1 (e : Edge) : ℤ := if e.dir1 = 1 then -e.bid1 else e.bid1

/-- The signed key under which `main` checks and registers the open end
at the `bid2` side of an edge (deschrambler.cpp:353-357 and 379-382). -/
def key2 (e : Edge) : ℤ := if e.dir2 = 1 then e.bid2 else -e.bid2

/-- A chain consumes the non-sentinel element-end `k` when one of its
edges' adjacency uses that end. -/
def chainUses (le : List Edge) (k : ℤ) : Prop :=
  k ≠ 0 ∧ ∃ e ∈ le, k = key1 e ∨ k = key2 e

/-- A chain is closed into a cycle when its back open end links to its
front open end through a non-sentinel block: the last edge's second end
equals the first edge's first end with matching orientation. -/
def isClosed (le : List Edge) : Prop :=
  le ≠ [] ∧ (backE le).bid2 = (frontE le).bid1 ∧
    (backE le).dir2 = (frontE le).dir1 ∧ (frontE le).bid1 ≠ 0

/-- The loop invariant of the greedy assembler: every chain is
nonempty; no chain is closed into a cycle; every element-end a chain
consumes is registered in the used-ends registry; and chains with
distinct class ids consume disjoint sets of non-sentinel element-ends. -/
def Inv (used : List ℤ) (classes : List (ℕ × List Edge)) : Prop :=
  (∀ p ∈ classes, p.2 ≠ []) ∧
  (∀ p ∈ classes, ¬ isClosed p.2) ∧
  (∀ p ∈ classes, ∀ k : ℤ, chainUses p.2 k → k ∈ used) ∧
  (∀ p ∈ classes, ∀ q ∈ classes, p.1 ≠ q.1 →
    ∀ k : ℤ, ¬ (chainUses p.2 k ∧ chainUses q.2 k))

/-- The `std::map` key order of the weighted edge table, lifted to the
vector entries. -/
def keyOrder (a b : Edge × ℚ) : Prop := Edge.lt a.1 b.1

/-- The postcondition `std::sort` actually guarantees for the
comparator `cmp` (a strict weak order on weights): the result is some
permutation of its argument whose weights are non-increasing.  Which
permutation is produced — in particular, the relative order of
equal-weight edges — is implementation-defined, since `std::sort`
promises no stability. -/
def sortSpec (table ve : List (Edge × ℚ)) : Prop :=
  ve.Perm table ∧ ve.Pairwise (fun a b : Edge × ℚ => b.2 ≤ a.2)

/-- distM lifted to a child pointer (`NULL` contributes nothing). -/
def distMO : Option RTree → Multiset ℚ
  | none => 0
  | some t => distM t

/-- leafM lifted to a child pointer (`NULL` contributes nothing). -/
def leafMO : Option RTree → Multiset String
  | none => 0
  | some t => leafM t


/-- The branch parameters stored on a path context. -/
def ctxDistM (ctx : List CtxEntry) : Multiset ℚ :=
  (ctx.map (fun c => c.distalpha) : List ℚ)

/-- The branch parameters inside the sibling subtrees of a path
context. -/
def ctxSibM (ctx : List CtxEntry) : Multiset ℚ :=
  (ctx.map (fun c => distMO c.sibling)).sum

/-- The leaf names inside the sibling subtrees of a path context. -/
def ctxLeafM (ctx : List CtxEntry) : Multiset String :=
  (ctx.map (fun c => leafMO c.sibling)).sum

/-! Theorems.  Each claim of the specification is settled by one named
theorem below; auxiliary lemmas carry the inductive arguments. -/

/-- C9: `map` is an involution on the canonical space `0..Z` with
`Z = 2T+1`, and folding an element reference `e` and its sign-flipped
reverse `-e` yields indices that differ by exactly `T` inside the
non-sentinel range `1..2T`. -/
theorem map_involution (T i e : ℕ) (hi : i ≤ 2 * T + 1)
    (he1 : 1 ≤ e) (he2 : e ≤ T) :
    map T (map T i) = i ∧
    foldRef T (-(e : ℤ)) = foldRef T (e : ℤ) + T ∧
    1 ≤ foldRef T (e : ℤ) ∧ foldRef T (e : ℤ) ≤ 2 * T ∧
    1 ≤ foldRef T (-(e : ℤ)) ∧ foldRef T (-(e : ℤ)) ≤ 2 * T := by
  have hfold : foldRef T (e : ℤ) = e := by
    simp [foldRef]
  have hneg : -(e : ℤ) < 0 := by
    have he : (1 : ℤ) ≤ (e : ℤ) := by exact_mod_cast he1
    omega
  have hfoldneg : foldRef T (-(e : ℤ)) = map T e := by
    simp only [foldRef, if_pos hneg, Int.natAbs_neg, Int.natAbs_ofNat]
  have hm : map T e = e + T := by
    unfold map
    split_ifs <;> first | omega | simp_all
  refine ⟨?_, ?_, ?_, ?_, ?_, ?_⟩
  · by_cases h0 : i = 0
    · subst h0
      have h1 : map T 0 = 2 * T + 1 := by
        unfold map; simp
      rw [h1]
      unfold map
      split_ifs <;> first | omega | simp_all
    by_cases hz : i = 2 * T + 1
    · subst hz
      have h1 : map T (2 * T + 1) = 0 := by
        unfold map; split_ifs <;> first | omega | simp_all
      rw [h1]
      unfold map
      simp
    by_cases hle : i ≤ T
    · have h1 : map T i = i + T := by
        unfold map; split_ifs <;> first | omega | simp_all
      rw [h1]
      unfold map
      split_ifs <;> first | omega | simp_all
    · have h1 : map T i = i - T := by
        unfold map; split_ifs <;> first | omega | simp_all
      rw [h1]
      unfold map
      split_ifs <;> first | omega | simp_all
  · rw [hfoldneg, hfold, hm]
  · rw [hfold]; omega
  · rw [hfold]; omega
  · rw [hfoldneg, hm]; omega
  · rw [hfoldneg, hm]; omega

/-- Witness for `map_involution` at `T = 2`, `i = 3`, `e = 1`. -/
theorem map_involution_witness :
    ((3 : ℕ) ≤ 2 * 2 + 1 ∧ (1 : ℕ) ≤ 1 ∧ (1 : ℕ) ≤ 2) ∧
    (map 2 (map 2 3) = 3 ∧
      foldRef 2 (-(1 : ℤ)) = foldRef 2 (1 : ℤ) + 2 ∧
      1 ≤ foldRef 2 (1 : ℤ) ∧ foldRef 2 (1 : ℤ) ≤ 2 * 2 ∧
      1 ≤ foldRef 2 (-(1 : ℤ)) ∧ foldRef 2 (-(1 : ℤ)) ≤ 2 * 2) :=
  ⟨⟨by decide, by decide, by decide⟩,
    map_involution 2 3 1 (by decide) (by decide) (by decide)⟩

/-- C1: for every tree node with branch parameter `distalpha ≥ 0` and
all state indices `i`, `s`, the one-branch transition probability
`prob(node, i, s)` equals the spec's closed-form symmetric-model
formula `1/(2T-1) + (2T-2)/(2T-1)·e^(-(2T-1)·distalpha)` on the
diagonal and `1/(2T-1) - 1/(2T-1)·e^(-(2T-1)·distalpha)` off it. -/
theorem prob_eq_spec (T : ℕ) (son : PhyloN) (h : 0 ≤ son.distalpha)
    (i s : ℕ) :
    prob T son i s = specTransitionProb T son.distalpha i s := by
  simp only [prob, specTransitionProb]

/-- Witness for `prob_eq_spec` at a concrete node with `distalpha = 0`. -/
theorem prob_eq_spec_witness :
    (0 : ℝ) ≤ (PhyloN.tip 0 (fun _ _ => false) (fun _ => false)).distalpha ∧
    prob 1 (PhyloN.tip 0 (fun _ _ => false) (fun _ => false)) 0 0 =
      specTransitionProb 1
        (PhyloN.tip 0 (fun _ _ => false) (fun _ => false)).distalpha 0 0 := by
  have hd : (0 : ℝ) ≤
      (PhyloN.tip 0 (fun _ _ => false) (fun _ => false)).distalpha := by
    simp [PhyloN.distalpha]
  exact ⟨hd, prob_eq_spec 1 _ hd 0 0⟩

/-- C2: `preLikelihood` computes exactly the recursion the spec states:
at a leaf it returns `1` when the end-membership marker does not
constrain column `j` and the observed adjacency bit for `(i, j)`
otherwise; at an internal node it returns the product over existing
children of `Σ_s [compatible(s,j)] · branchProb(child,i,s) ·
preLikelihood(child,s,j)`, a missing child contributing the factor 1. -/
theorem preLikelihood_eq_spec (T : ℕ) (DPPI : ℕ → ℕ → Bool) (t : PhyloN)
    (i j : ℕ) :
    preLikelihood T DPPI t i j = specPreLikelihood T DPPI t i j := by
  induction t generalizing i j with
  | tip d P th =>
      simp [preLikelihood, specPreLikelihood]
  | uniL d P th l ihl =>
      simp [preLikelihood, specPreLikelihood, Finset.sum_filter, ihl]
  | uniR d P th r ihr =>
      simp [preLikelihood, specPreLikelihood, Finset.sum_filter, ihr]
  | bin d P th l r ihl ihr =>
      simp [preLikelihood, specPreLikelihood, Finset.sum_filter, ihl, ihr]

/-- Division distributes over a column sum. -/
theorem sum_map_div_col (l : List (ℕ × ℝ)) (c : ℝ) :
    ((l.map (fun p => p.2 / c))).sum = (l.map (fun p => p.2)).sum / c := by
  induction l with
  | nil => simp
  | cons a l ih => simp [ih, add_div]

/-- The transition probability is nonnegative whenever `T ≥ 1` and the
branch parameter is nonnegative.  This is the strongest pointwise lower
bound: at a zero-length branch the off-diagonal probability is exactly
`0`. -/
theorem prob_nonneg (T : ℕ) (hT : 1 ≤ T) (son : PhyloN)
    (hd : 0 ≤ son.distalpha) (i s : ℕ) : 0 ≤ prob T son i s := by
  have hn : (1 : ℝ) ≤ (T : ℝ) := by exact_mod_cast hT
  have h1 : (0 : ℝ) < 2 * (T : ℝ) - 1 := by linarith
  unfold prob
  split_ifs
  · have he : 0 < Real.exp (-(2 * (T : ℝ) - 1) * PhyloN.distalpha son) :=
      Real.exp_pos _
    have h2 : (0 : ℝ) ≤ 2 * (T : ℝ) - 2 := by linarith
    exact add_nonneg (le_of_lt (div_pos one_pos h1))
      (mul_nonneg (div_nonneg h2 (le_of_lt h1)) (le_of_lt he))
  · have hmul : 0 ≤ (2 * (T : ℝ) - 1) * PhyloN.distalpha son :=
      mul_nonneg (le_of_lt h1) hd
    have hexp : Real.exp (-(2 * (T : ℝ) - 1) * PhyloN.distalpha son) ≤ 1 := by
      have h0 : Real.exp (-(2 * (T : ℝ) - 1) * PhyloN.distalpha son) ≤
          Real.exp 0 := Real.exp_le_exp.mpr (by linarith)
      simpa using h0
    have hre : 1 / (2 * (T : ℝ) - 1) -
        1 / (2 * (T : ℝ) - 1) *
          Real.exp (-(2 * (T : ℝ) - 1) * PhyloN.distalpha son) =
        (1 / (2 * (T : ℝ) - 1)) *
          (1 - Real.exp (-(2 * (T : ℝ) - 1) * PhyloN.distalpha son)) := by
      ring
    rw [hre]
    exact mul_nonneg (le_of_lt (div_pos one_pos h1)) (by linarith)

/-- Every pre-likelihood the program stores into a column is
nonnegative: a product of sums of nonnegative terms.  `0` itself
occurs (see the counterexample below), so nonnegativity — not
positivity — is what the stored entries satisfy. -/
theorem preLikelihood_nonneg (T : ℕ) (hT : 1 ≤ T) (DPPI : ℕ → ℕ → Bool) :
    ∀ (t : PhyloN), t.nonnegBranches → ∀ (i j : ℕ),
      0 ≤ preLikelihood T DPPI t i j := by
  have hda : ∀ (t : PhyloN), t.nonnegBranches → 0 ≤ t.distalpha := by
    intro t ht
    cases t with
    | tip d P th => exact ht
    | uniL d P th l => exact ht.1
    | uniR d P th r => exact ht.1
    | bin d P th l r => exact ht.1
  intro t
  induction t with
  | tip d P th =>
      intro _ i j
      simp only [preLikelihood]
      split_ifs <;> norm_num
  | uniL d P th l ihl =>
      intro ht i j
      obtain ⟨-, hl⟩ := ht
      simp only [preLikelihood, mul_one]
      refine Finset.sum_nonneg fun s _ => ?_
      split_ifs
      · exact mul_nonneg (prob_nonneg T hT l (hda l hl) i s) (ihl hl s j)
      · exact le_refl 0
  | uniR d P th r ihr =>
      intro ht i j
      obtain ⟨-, hr⟩ := ht
      simp only [preLikelihood, one_mul]
      refine Finset.sum_nonneg fun s _ => ?_
      split_ifs
      · exact mul_nonneg (prob_nonneg T hT r (hda r hr) i s) (ihr hr s j)
      · exact le_refl 0
  | bin d P th l r ihl ihr =>
      intro ht i j
      obtain ⟨-, hl, hr⟩ := ht
      simp only [preLikelihood]
      refine mul_nonneg (Finset.sum_nonneg fun s _ => ?_)
        (Finset.sum_nonneg fun s _ => ?_) <;> split_ifs
      · exact mul_nonneg (prob_nonneg T hT l (hda l hl) i s) (ihl hl s j)
      · exact le_refl 0
      · exact mul_nonneg (prob_nonneg T hT r (hda r hr) i s) (ihr hr s j)
      · exact le_refl 0

/-- C3 counterexample: the program's emitted probabilities are not
always in `(0, 1]`.  Branch lengths of exactly `0` are admissible
(`distalpha >= 0`, and the re-rooting pass itself creates a zero-length
branch); across a zero-length branch the off-diagonal transition
probability is exactly `0`, so a pair contradicted by the observation
at such a leaf gets pre-likelihood `0` stored into its column.  Below,
the tree has two zero-length leaves both observing state `1`: the
column over root states `{1, 2}` has a positive sum (so the run is one
the program completes without dividing by zero), yet the normalized
entry of state `2` is exactly `0`, which is not in `(0, 1]`. -/
theorem normalize_zero_counterexample :
    (PhyloN.bin 0 (fun _ _ => false) (fun _ => false)
        (PhyloN.tip 0 (fun s _ => decide (s = 1)) (fun _ => true))
        (PhyloN.tip 0 (fun s _ => decide (s = 1)) (fun _ => true))).nonnegBranches ∧
    0 < (([((1 : ℕ), preLikelihood 1 (fun _ _ => true)
            (PhyloN.bin 0 (fun _ _ => false) (fun _ => false)
              (PhyloN.tip 0 (fun s _ => decide (s = 1)) (fun _ => true))
              (PhyloN.tip 0 (fun s _ => decide (s = 1)) (fun _ => true))) 1 0),
          (2, preLikelihood 1 (fun _ _ => true)
            (PhyloN.bin 0 (fun _ _ => false) (fun _ => false)
              (PhyloN.tip 0 (fun s _ => decide (s = 1)) (fun _ => true))
              (PhyloN.tip 0 (fun s _ => decide (s = 1)) (fun _ => true))) 2 0)] :
        List (ℕ × ℝ)).map (fun p => p.2)).sum ∧
    (∃ p ∈ normalize
        [((1 : ℕ), preLikelihood 1 (fun _ _ => true)
            (PhyloN.bin 0 (fun _ _ => false) (fun _ => false)
              (PhyloN.tip 0 (fun s _ => decide (s = 1)) (fun _ => true))
              (PhyloN.tip 0 (fun s _ => decide (s = 1)) (fun _ => true))) 1 0),
          (2, preLikelihood 1 (fun _ _ => true)
            (PhyloN.bin 0 (fun _ _ => false) (fun _ => false)
              (PhyloN.tip 0 (fun s _ => decide (s = 1)) (fun _ => true))
              (PhyloN.tip 0 (fun s _ => decide (s = 1)) (fun _ => true))) 2 0)],
      ¬ (0 < p.2)) := by
  have hp1 : preLikelihood 1 (fun _ _ => true)
      (PhyloN.bin 0 (fun _ _ => false) (fun _ => false)
        (PhyloN.tip 0 (fun s _ => decide (s = 1)) (fun _ => true))
        (PhyloN.tip 0 (fun s _ => decide (s = 1)) (fun _ => true))) 1 0 = 1 := by
    simp [preLikelihood, prob, PhyloN.distalpha, Finset.sum_range_succ]
    norm_num
  have hp2 : preLikelihood 1 (fun _ _ => true)
      (PhyloN.bin 0 (fun _ _ => false) (fun _ => false)
        (PhyloN.tip 0 (fun s _ => decide (s = 1)) (fun _ => true))
        (PhyloN.tip 0 (fun s _ => decide (s = 1)) (fun _ => true))) 2 0 = 0 := by
    simp [preLikelihood, prob, PhyloN.distalpha, Finset.sum_range_succ]
  refine ⟨⟨le_refl 0, le_refl 0, le_refl 0⟩, ?_, ?_⟩
  · rw [List.map_cons, List.map_cons, List.map_nil]
    simp only [hp1, hp2]
    norm_num
  · refine ⟨((2 : ℕ), 0), ?_, by norm_num⟩
    simp only [normalize, List.map_cons, List.map_nil, hp2, zero_div]
    simp

/-- C3 (amended): for every likelihood column of nonnegative stored
entries with positive sum — nonnegativity holds of every entry the
program stores, and positivity of the sum is what keeps the division
meaningful — the normalized posteriors sum to `1` and each lies in
`[0, 1]`, and the emitted probability of a compatible pair (a
predecessor posterior times a successor posterior) lies in `[0, 1]`.
The lower end `0` is attained on reachable inputs, so the bound is
closed, not open. -/
theorem normalize_posterior (colP colS : List (ℕ × ℝ))
    (hPnn : ∀ p ∈ colP, 0 ≤ p.2) (hSnn : ∀ p ∈ colS, 0 ≤ p.2)
    (hPs : 0 < (colP.map (fun p => p.2)).sum)
    (hSs : 0 < (colS.map (fun p => p.2)).sum) :
    ((normalize colP).map (fun p => p.2)).sum = 1 ∧
    (∀ p ∈ normalize colP, 0 ≤ p.2 ∧ p.2 ≤ 1) ∧
    (∀ p ∈ normalize colP, ∀ q ∈ normalize colS,
      0 ≤ p.2 * q.2 ∧ p.2 * q.2 ≤ 1) := by
  have hent : ∀ (col : List (ℕ × ℝ)), (∀ p ∈ col, 0 ≤ p.2) →
      0 < (col.map (fun p => p.2)).sum →
      ∀ p ∈ normalize col, 0 ≤ p.2 ∧ p.2 ≤ 1 := by
    intro col hnn hcs p hp
    rcases List.mem_map.mp hp with ⟨q, hq, rfl⟩
    constructor
    · exact div_nonneg (hnn q hq) (le_of_lt hcs)
    · rw [div_le_one hcs]
      apply List.single_le_sum (fun x hx => ?_) _ (List.mem_map.mpr ⟨q, hq, rfl⟩)
      rcases List.mem_map.mp hx with ⟨r, hr, rfl⟩
      exact hnn r hr
  refine ⟨?_, hent colP hPnn hPs, ?_⟩
  · have : (normalize colP).map (fun p => p.2) =
        colP.map (fun p => p.2 / (colP.map (fun p => p.2)).sum) := by
      simp [normalize]
    rw [this, sum_map_div_col, div_self (ne_of_gt hPs)]
  · intro p hp q hq
    have h1 := hent colP hPnn hPs p hp
    have h2 := hent colS hSnn hSs q hq
    exact ⟨mul_nonneg h1.1 h2.1, mul_le_one₀ h1.2 h2.1 h2.2⟩

/-- Witness for `normalize_posterior` at concrete columns, one of which
stores a zero entry. -/
theorem normalize_posterior_witness :
    ((∀ p ∈ ([((1 : ℕ), (1 : ℝ)/2), (2, 0), (3, 1/2)] : List (ℕ × ℝ)),
        0 ≤ p.2) ∧
      (∀ p ∈ ([((1 : ℕ), (1 : ℝ))] : List (ℕ × ℝ)), 0 ≤ p.2) ∧
      0 < (([((1 : ℕ), (1 : ℝ)/2), (2, 0), (3, 1/2)] : List (ℕ × ℝ)).map
        (fun p => p.2)).sum ∧
      0 < (([((1 : ℕ), (1 : ℝ))] : List (ℕ × ℝ)).map (fun p => p.2)).sum) ∧
    (((normalize [((1 : ℕ), (1 : ℝ)/2), (2, 0), (3, 1/2)]).map
        (fun p => p.2)).sum = 1 ∧
      (∀ p ∈ normalize [((1 : ℕ), (1 : ℝ)/2), (2, 0), (3, 1/2)],
        0 ≤ p.2 ∧ p.2 ≤ 1) ∧
      (∀ p ∈ normalize [((1 : ℕ), (1 : ℝ)/2), (2, 0), (3, 1/2)],
        ∀ q ∈ normalize [((1 : ℕ), (1 : ℝ))],
          0 ≤ p.2 * q.2 ∧ p.2 * q.2 ≤ 1)) := by
  have h1 : ∀ p ∈ ([((1 : ℕ), (1 : ℝ)/2), (2, 0), (3, 1/2)] : List (ℕ × ℝ)),
      0 ≤ p.2 := by
    intro p hp
    fin_cases hp <;> norm_num
  have h2 : ∀ p ∈ ([((1 : ℕ), (1 : ℝ))] : List (ℕ × ℝ)), 0 ≤ p.2 := by
    intro p hp
    fin_cases hp <;> norm_num
  have h3 : 0 < (([((1 : ℕ), (1 : ℝ)/2), (2, 0), (3, 1/2)] : List (ℕ × ℝ)).map
      (fun p => p.2)).sum := by
    simp
  have h4 : 0 < (([((1 : ℕ), (1 : ℝ))] : List (ℕ × ℝ)).map
      (fun p => p.2)).sum := by
    simp
  exact ⟨⟨h1, h2, h3, h4⟩, normalize_posterior _ _ h1 h2 h3 h4⟩

/-- C10: `insertEdge` is atomic on rejection: whenever it returns `FAIL`
or `CYCLE`, the chain, the candidate edge (orientation fields included)
and the used-ends registry come back exactly unchanged; mutation happens
only on `SUCCESS`. -/
theorem insertEdge_reject_unchanged (le : List Edge) (e : Edge)
    (used : List ℤ) (h : (insertEdge le e used).1 ≠ Res.SUCCESS) :
    insertEdge le e used = ((insertEdge le e used).1, le, e, used) := by
  revert h
  simp only [insertEdge]
  split_ifs <;> intro h <;> first | rfl | exact absurd rfl h

/-- Witness for `insertEdge_reject_unchanged` at a concrete rejected
edge. -/
theorem insertEdge_reject_unchanged_witness :
    (insertEdge [⟨1,1,2,1,0,0⟩] ⟨7,1,8,1,0,0⟩ []).1 ≠ Res.SUCCESS ∧
    insertEdge [⟨1,1,2,1,0,0⟩] ⟨7,1,8,1,0,0⟩ [] =
      ((insertEdge [⟨1,1,2,1,0,0⟩] ⟨7,1,8,1,0,0⟩ []).1,
        [⟨1,1,2,1,0,0⟩], ⟨7,1,8,1,0,0⟩, []) :=
  ⟨by decide, insertEdge_reject_unchanged _ _ _ (by decide)⟩

/-- C7: evaluation of the assembler at the failing input.  On the score
table `0 5 9` / `-6 0 8` (two chromosome-end adjacencies of different
chromosomes), the first extension case of `insertEdge`
(deschrambler.cpp:98-112) fires with `fe.bid1 = e.bid1 = 0` — unlike
the same-direction cases 2 and 3 it carries no `== 0` sentinel guard —
and the emitted single chain threads the sentinel block `0` through the
junction between its two consecutive edges: the first edge's second end
and the second edge's first end are both block `0`, so `0` occurs at an
interior junction, not only at the chain's open ends. -/
theorem sentinel_interior_junction :
    (assemble 0 [((0 : ℤ), (5 : ℤ), (9 : ℚ)), (-6, 0, 8)]).mapClasses =
      [(1, [⟨6, -1, 0, 1, 8, 8⟩, ⟨0, 1, 5, 1, 9, 9⟩])] ∧
    (Edge.mk 6 (-1) 0 1 8 8).bid2 = 0 ∧ (Edge.mk 0 1 5 1 9 9).bid1 = 0 := by
  refine ⟨?_, rfl, rfl⟩
  set_option maxRecDepth 100000 in decide

/-- C6 counterexample: ties are not broken by the input's natural
(insertion) order.  On the score table `3 4 1` / `1 2 1` all four
derived edges have the same weight `1`, yet the vector the greedy loop
processes lists the edges derived from the second input line before the
edges derived from the first: the order is the `std::map` key order of
the weight table, not the input order. -/
theorem tie_order_counterexample :
    (vecEdgesOf [((3 : ℤ), (4 : ℤ), (1 : ℚ)), (1, 2, 1)]).map
        (fun p => (p.1.bid1, p.1.dir1, p.1.bid2, p.1.dir2, p.2)) =
      [((1 : ℤ), (1 : ℤ), (2 : ℤ), (1 : ℤ), (1 : ℚ)),
        (2, -1, 1, -1, 1), (3, 1, 4, 1, 1), (4, -1, 3, -1, 1)] := by
  decide

/-- Unfolding shape for the option-lifted branch multiset. -/
theorem distMO_some (t : RTree) : distMO (some t) = distM t := rfl

/-- Unfolding shape for the option-lifted branch multiset at `NULL`. -/
theorem distMO_none : distMO none = 0 := rfl

/-- Unfolding shape for the option-lifted leaf multiset. -/
theorem leafMO_some (t : RTree) : leafMO (some t) = leafM t := rfl

/-- Unfolding shape for the option-lifted leaf multiset at `NULL`. -/
theorem leafMO_none : leafMO none = 0 := rfl

/-- Mapping a function of the sibling factors through the sibling
projection. -/
theorem map_sibling_comp {γ : Type} (f : Option RTree → γ) :
    ∀ ctx : List CtxEntry,
      ctx.map (fun c => f c.sibling) = (ctx.map (fun c => c.sibling)).map f := by
  intro ctx
  induction ctx with
  | nil => simp
  | cons c ctx ih => simp [ih]

/-- distM of a node in terms of its children. -/
theorem distM_mk (nm : String) (d : ℚ) (l r : Option RTree) :
    distM (RTree.mk nm d l r) = d ::ₘ (distMO l + distMO r) := by
  cases l <;> cases r <;> simp [distM, distMO]

/-- leafM of a node that has at least one child. -/
theorem leafM_mk_sib (nm : String) (d : ℚ) (l r : Option RTree)
    (h : l ≠ none ∨ r ≠ none) :
    leafM (RTree.mk nm d l r) = leafMO l + leafMO r := by
  cases l <;> cases r <;> simp_all [leafM, leafMO]

/-- `setRootD` preserves everything except the root's parameter. -/
theorem setRootD_leafM (t : RTree) (x : ℚ) : leafM (setRootD t x) = leafM t := by
  cases t with
  | mk nm d l r => cases l <;> cases r <;> simp [setRootD, leafM]

/-- distM of a reconstituted tree: the plugged subtree plus the path's
own parameters plus the sibling subtrees. -/
theorem plug_distM : ∀ (ctx : List CtxEntry) (t : RTree),
    distM (plug t ctx) = distM t + (ctxDistM ctx + ctxSibM ctx) := by
  intro ctx
  induction ctx with
  | nil => intro t; simp [plug, ctxDistM, ctxSibM]
  | cons c ctx ih =>
      intro t
      simp only [plug]
      rw [ih]
      cases hcs : c.side <;>
        simp only [hcs, Bool.false_eq_true, ite_false, ite_true,
          distM_mk, distMO_some, ctxDistM, ctxSibM, List.map_cons,
          List.sum_cons, ← Multiset.cons_coe, ← Multiset.singleton_add] <;>
        abel

/-- leafM of a reconstituted tree. -/
theorem plug_leafM : ∀ (ctx : List CtxEntry) (t : RTree),
    leafM (plug t ctx) = leafM t + ctxLeafM ctx := by
  intro ctx
  induction ctx with
  | nil => intro t; simp [plug, ctxLeafM]
  | cons c ctx ih =>
      intro t
      simp only [plug]
      rw [ih]
      cases hcs : c.side
      · simp only [hcs, Bool.false_eq_true, ite_false]
        rw [leafM_mk_sib _ _ _ _ (Or.inl (by simp))]
        simp only [leafMO_some, ctxLeafM, List.map_cons, List.sum_cons]
        abel
      · simp only [hcs, ite_true]
        rw [leafM_mk_sib _ _ _ _ (Or.inr (by simp))]
        simp only [leafMO_some, ctxLeafM, List.map_cons, List.sum_cons]
        abel

/-- distM of one re-hung path node. -/
theorem attach_distM (c : CtxEntry) (p : Option RTree) :
    distM (attach c p) = c.distalpha ::ₘ (distMO c.sibling + distMO p) := by
  unfold attach
  cases hcs : c.side
  · cases hs : c.sibling <;>
      simp only [hcs, hs, Bool.false_eq_true, ite_false, distM_mk,
        distMO_some, distMO_none, ← Multiset.singleton_add] <;> abel
  · simp only [hcs, ite_true, distM_mk]

/-- leafM of one re-hung path node with a real sibling. -/
theorem attach_leafM (c : CtxEntry) (p : Option RTree) (h : c.sibling ≠ none) :
    leafM (attach c p) = leafMO c.sibling + leafMO p := by
  unfold attach
  cases hcs : c.side
  · cases hs : c.sibling
    · exact absurd hs h
    · simp only [hcs, hs, Bool.false_eq_true, ite_false]
      rw [leafM_mk_sib _ _ _ _ (Or.inr (by simp))]
      simp only [leafMO_some]
      abel
  · simp only [hcs, ite_true]
    rw [leafM_mk_sib _ _ _ _ (Or.inl h)]

/-- distM of the rotated path. -/
theorem rebuild_distM : ∀ ctx : List CtxEntry,
    distMO (rebuild ctx) = ctxDistM ctx + ctxSibM ctx := by
  intro ctx
  induction ctx with
  | nil => simp [rebuild, distMO, ctxDistM, ctxSibM]
  | cons c ctx ih =>
      simp only [rebuild, distMO_some, attach_distM, ih, ctxDistM, ctxSibM,
        List.map_cons, List.sum_cons, ← Multiset.cons_coe,
        ← Multiset.singleton_add]
      abel

/-- leafM of the rotated path. -/
theorem rebuild_leafM : ∀ ctx : List CtxEntry,
    (∀ c ∈ ctx, c.sibling ≠ none) →
    leafMO (rebuild ctx) = ctxLeafM ctx := by
  intro ctx
  induction ctx with
  | nil => intro _; simp [rebuild, leafMO, ctxLeafM]
  | cons c ctx ih =>
      intro hs
      have hc : c.sibling ≠ none := hs c (by simp)
      simp only [rebuild, leafMO_some]
      rw [attach_leafM _ _ hc]
      rw [ih (fun x hx => hs x (by simp [hx]))]
      simp [ctxLeafM]

/-- `shiftD` keeps the sibling subtrees. -/
theorem shiftD_sibling : ∀ (d0 : ℚ) (ctx : List CtxEntry),
    (shiftD d0 ctx).map (fun c => c.sibling) = ctx.map (fun c => c.sibling) := by
  intro d0 ctx
  induction ctx generalizing d0 with
  | nil => simp [shiftD]
  | cons c ctx ih => simp [shiftD, ih]

/-- `shiftD` rotates the branch parameters down the path: the list of
parameters becomes the seed followed by all but the last original
parameter. -/
theorem shiftD_dists : ∀ (d0 : ℚ) (ctx : List CtxEntry), ctx ≠ [] →
    (shiftD d0 ctx).map (fun c => c.distalpha) =
      d0 :: (ctx.map (fun c => c.distalpha)).dropLast := by
  intro d0 ctx
  induction ctx generalizing d0 with
  | nil => intro h; exact absurd rfl h
  | cons c ctx ih =>
      intro _
      cases ctx with
      | nil => simp [shiftD]
      | cons c2 ctx2 =>
          have h1 : shiftD d0 (c :: c2 :: ctx2) =
              { c with distalpha := d0 } :: shiftD c.distalpha (c2 :: ctx2) := rfl
          rw [h1, List.map_cons, ih c.distalpha (by simp)]
          simp

/-- Map a `getLast?` through a function. -/
theorem getLast?_map_fn {α β : Type} (f : α → β) :
    ∀ (l : List α) (x : α), l.getLast? = some x →
      (l.map f).getLast? = some (f x) := by
  intro l
  induction l with
  | nil => intro x h; simp at h
  | cons a l ih =>
      intro x h
      cases l with
      | nil => simp at h; subst h; simp
      | cons b l2 =>
          rw [List.getLast?_cons_cons] at h
          simpa [List.getLast?_cons_cons] using ih x h

/-- A list whose last element is known splits off that element as a
multiset. -/
theorem coe_dropLast_getLast (l : List ℚ) (x : ℚ) (h : l.getLast? = some x) :
    (l : Multiset ℚ) = (l.dropLast : Multiset ℚ) + {x} := by
  induction l with
  | nil => simp at h
  | cons a l ih =>
      cases l with
      | nil =>
          simp at h
          subst h
          simp [← Multiset.singleton_add]
      | cons b l2 =>
          rw [List.getLast?_cons_cons] at h
          have hdl : (a :: b :: l2).dropLast = a :: (b :: l2).dropLast := rfl
          rw [hdl]
          have hc1 : ((a :: b :: l2 : List ℚ) : Multiset ℚ) =
              {a} + ((b :: l2 : List ℚ) : Multiset ℚ) := by
            rw [← Multiset.cons_coe, ← Multiset.singleton_add]
          have hc2 : ((a :: (b :: l2).dropLast : List ℚ) : Multiset ℚ) =
              {a} + (((b :: l2).dropLast : List ℚ) : Multiset ℚ) := by
            rw [← Multiset.cons_coe, ← Multiset.singleton_add]
          rw [hc1, hc2, ih h]
          abel

/-- C8 counterexample: on the spec's own example tree
`(A:0.1,(B:0.2,C:0.3)@:0.05);` (parameters scaled to integers), the
multiset of `distalpha` values over the nodes is not preserved by
`modifyTree`: the synthetic `NEWROOT` adds one extra zero, so
`sorted(branchLengths(before)) != sorted(branchLengths(after))`. -/
theorem modifyTree_multiset_counterexample :
    distM (modifyTree
        (RTree.mk ("I") 4
          (some (RTree.mk ("B") 2 none none))
          (some (RTree.mk ("C") 3 none none)))
        [⟨true, "R", 0, some (RTree.mk ("A") 1 none none)⟩]) ≠
      distM (plug
        (RTree.mk ("I") 4
          (some (RTree.mk ("B") 2 none none))
          (some (RTree.mk ("C") 3 none none)))
        [⟨true, "R", 0, some (RTree.mk ("A") 1 none none)⟩]) := by
  intro h
  have hc := congrArg Multiset.card h
  simp [modifyTree, plug, rebuild, attach, shiftD, setRootD, distM] at hc

/-- C8 (amended): for every parsed tree in which the designated
ancestral node is not the structural root (nonempty path context, every
path node binary, the stored root parameter zero as `AllocVar` zeroes
it), `modifyTree` preserves the multiset of `distalpha` values up to
exactly one extra zero — the zero-length synthetic root — redistributing
the lengths along the rotated path, and preserves the leaf names
exactly. -/
theorem modifyTree_branch_multiset (ances : RTree) (ctx : List CtxEntry)
    (hne : ctx ≠ []) (hsib : ∀ c ∈ ctx, c.sibling ≠ none)
    (hroot : ∀ c ∈ ctx.getLast?, c.distalpha = 0) :
    distM (modifyTree ances ctx) = 0 ::ₘ distM (plug ances ctx) ∧
    leafM (modifyTree ances ctx) = leafM (plug ances ctx) := by
  obtain ⟨c1, rest, rfl⟩ : ∃ c1 rest, ctx = c1 :: rest := by
    cases ctx with
    | nil => exact absurd rfl hne
    | cons a l => exact ⟨a, l, rfl⟩
  obtain ⟨nm, d0, l, r⟩ := ances
  have hlast : ∃ cl, (c1 :: rest).getLast? = some cl ∧ cl.distalpha = 0 := by
    have hex : ∃ cl, (c1 :: rest).getLast? = some cl := by
      cases h : (c1 :: rest).getLast? with
      | none => simp [List.getLast?_eq_none_iff] at h
      | some cl => exact ⟨cl, rfl⟩
    obtain ⟨cl, hcl⟩ := hex
    exact ⟨cl, hcl, hroot cl (by simp [hcl])⟩
  obtain ⟨cl, hcl, hcl0⟩ := hlast
  have hdists0 : ((c1 :: rest).map (fun c => c.distalpha)).getLast? =
      some (0 : ℚ) := by
    have := getLast?_map_fn (fun c => c.distalpha) (c1 :: rest) cl hcl
    rw [this]
    simp [hcl0]
  have hsplit := coe_dropLast_getLast _ _ hdists0
  constructor
  · -- branch parameter multiset
    simp only [modifyTree]
    have hside : ∀ b : Bool,
        distM (if b then
            RTree.mk ("NEWROOT") 0
              (rebuild (shiftD (RTree.mk nm d0 l r).distalpha (c1 :: rest)))
              (some (setRootD (RTree.mk nm d0 l r) 0))
          else
            RTree.mk ("NEWROOT") 0
              (some (setRootD (RTree.mk nm d0 l r) 0))
              (rebuild (shiftD (RTree.mk nm d0 l r).distalpha (c1 :: rest)))) =
        0 ::ₘ (distMO (rebuild (shiftD d0 (c1 :: rest))) +
          distM (setRootD (RTree.mk nm d0 l r) 0)) := by
      intro b
      cases b <;>
        simp only [ite_true, ite_false, Bool.false_eq_true, distM_mk, distMO,
          RTree.distalpha, ← Multiset.singleton_add] <;> abel
    rw [hside c1.side]
    rw [plug_distM]
    have hreb := rebuild_distM (shiftD d0 (c1 :: rest))
    have hsibs : ctxSibM (shiftD d0 (c1 :: rest)) = ctxSibM (c1 :: rest) := by
      simp only [ctxSibM]
      rw [map_sibling_comp distMO, shiftD_sibling, ← map_sibling_comp distMO]
    have hds : ctxDistM (shiftD d0 (c1 :: rest)) =
        {d0} + (((c1 :: rest).map (fun c => c.distalpha)).dropLast : Multiset ℚ) := by
      simp only [ctxDistM]
      rw [shiftD_dists d0 (c1 :: rest) (by simp), ← Multiset.cons_coe,
        ← Multiset.singleton_add]
    rw [hreb, hsibs, hds]
    simp only [setRootD, distM_mk, ctxDistM, ← Multiset.singleton_add, hsplit]
    abel
  · -- leaf names
    simp only [modifyTree]
    have hside : ∀ b : Bool,
        leafM (if b then
            RTree.mk ("NEWROOT") 0
              (rebuild (shiftD (RTree.mk nm d0 l r).distalpha (c1 :: rest)))
              (some (setRootD (RTree.mk nm d0 l r) 0))
          else
            RTree.mk ("NEWROOT") 0
              (some (setRootD (RTree.mk nm d0 l r) 0))
              (rebuild (shiftD (RTree.mk nm d0 l r).distalpha (c1 :: rest)))) =
        leafMO (rebuild (shiftD d0 (c1 :: rest))) +
          leafM (setRootD (RTree.mk nm d0 l r) 0) := by
      intro b
      cases b
      · simp only [Bool.false_eq_true, ite_false, RTree.distalpha]
        rw [leafM_mk_sib _ _ _ _ (Or.inl (by simp))]
        simp only [leafMO]
        abel
      · simp only [ite_true, RTree.distalpha]
        rw [leafM_mk_sib _ _ _ _ (Or.inr (by simp))]
        simp only [leafMO]
    rw [hside c1.side]
    rw [plug_leafM]
    have hsibs2 : ∀ c ∈ shiftD d0 (c1 :: rest), c.sibling ≠ none := by
      intro c hc
      have hmem : c.sibling ∈ (shiftD d0 (c1 :: rest)).map (fun c => c.sibling) :=
        List.mem_map_of_mem _ hc
      rw [shiftD_sibling] at hmem
      obtain ⟨c2, hc2, hc2e⟩ := List.mem_map.mp hmem
      rw [← hc2e]
      exact hsib c2 hc2
    rw [rebuild_leafM _ hsibs2, setRootD_leafM]
    have hleafs : ctxLeafM (shiftD d0 (c1 :: rest)) = ctxLeafM (c1 :: rest) := by
      simp only [ctxLeafM]
      rw [map_sibling_comp leafMO, shiftD_sibling, ← map_sibling_comp leafMO]
    rw [hleafs]
    abel

/-- Witness for `modifyTree_branch_multiset` at the spec's example
tree. -/
theorem modifyTree_branch_multiset_witness :
    distM (modifyTree
        (RTree.mk ("I") 4 (some (RTree.mk ("B") 2 none none))
          (some (RTree.mk ("C") 3 none none)))
        [⟨true, "R", 0, some (RTree.mk ("A") 1 none none)⟩]) =
      0 ::ₘ distM (plug
        (RTree.mk ("I") 4 (some (RTree.mk ("B") 2 none none))
          (some (RTree.mk ("C") 3 none none)))
        [⟨true, "R", 0, some (RTree.mk ("A") 1 none none)⟩]) ∧
    leafM (modifyTree
        (RTree.mk ("I") 4 (some (RTree.mk ("B") 2 none none))
          (some (RTree.mk ("C") 3 none none)))
        [⟨true, "R", 0, some (RTree.mk ("A") 1 none none)⟩]) =
      leafM (plug
        (RTree.mk ("I") 4 (some (RTree.mk ("B") 2 none none))
          (some (RTree.mk ("C") 3 none none)))
        [⟨true, "R", 0, some (RTree.mk ("A") 1 none none)⟩]) :=
  modifyTree_branch_multiset _ _ (by simp)
    (by
      intro c hc
      simp only [List.mem_singleton] at hc
      subst hc
      simp)
    (by
      intro c hc
      simp only [List.getLast?_singleton, Option.mem_def, Option.some_inj] at hc
      subst hc
      rfl)

/-- Characterization of `Edge::operator<` as a lexicographic
comparison. -/
theorem edge_lt_iff (a b : Edge) : Edge.lt a b ↔
    (a.bid1 < b.bid1 ∨ (a.bid1 = b.bid1 ∧ (a.dir1 < b.dir1 ∨ (a.dir1 = b.dir1 ∧
      (a.bid2 < b.bid2 ∨ (a.bid2 = b.bid2 ∧ a.dir2 < b.dir2)))))) := by
  unfold Edge.lt
  by_cases e1 : a.bid1 = b.bid1
  · by_cases e2 : a.dir1 = b.dir1
    · by_cases e3 : a.bid2 = b.bid2
      · simp [e1, e2, e3]
        all_goals omega
      · simp [e1, e2, e3]
        all_goals omega
    · simp [e1, e2]
      all_goals omega
  · simp [e1]
    all_goals omega

/-- Key equivalence as field equality. -/
theorem edge_keyEq_iff (a b : Edge) : Edge.keyEq a b ↔
    (a.bid1 = b.bid1 ∧ a.dir1 = b.dir1 ∧ a.bid2 = b.bid2 ∧ a.dir2 = b.dir2) :=
  Iff.rfl

/-- The map key order is transitive. -/
theorem edge_lt_trans {a b c : Edge} (h1 : Edge.lt a b) (h2 : Edge.lt b c) :
    Edge.lt a c := by
  rw [edge_lt_iff] at *
  omega

/-- Two inequivalent keys are strictly ordered one way. -/
theorem edge_lt_connex {a b : Edge} (h1 : ¬ Edge.lt a b)
    (h2 : ¬ Edge.keyEq a b) : Edge.lt b a := by
  rw [edge_lt_iff] at *
  rw [edge_keyEq_iff] at h2
  omega

/-- The keys present after a `std::map` assignment. -/
theorem mapAssign_keys (k : Edge) (v : ℚ) :
    ∀ (m : List (Edge × ℚ)) (x : Edge × ℚ), x ∈ mapAssign m k v →
      x.1 = k ∨ x.1 ∈ m.map (fun p => p.1) := by
  intro m
  induction m with
  | nil =>
      intro x hx
      simp [mapAssign] at hx
      simp [hx]
  | cons q rest ih =>
      intro x hx
      obtain ⟨k1, v1⟩ := q
      simp only [mapAssign] at hx
      split_ifs at hx with h1 h2
      · simp only [List.mem_cons] at hx
        rcases hx with rfl | hx
        · simp
        · rcases hx with rfl | hx
          · simp
          · right
            simp only [List.map_cons, List.mem_cons]
            right
            exact List.mem_map_of_mem _ hx
      · simp only [List.mem_cons] at hx
        rcases hx with rfl | hx
        · simp
        · right
          simp only [List.map_cons, List.mem_cons]
          right
          exact List.mem_map_of_mem _ hx
      · simp only [List.mem_cons] at hx
        rcases hx with rfl | hx
        · simp
        · rcases ih x hx with h | h
          · exact Or.inl h
          · right
            simp only [List.map_cons, List.mem_cons]
            exact Or.inr h

/-- A `std::map` assignment keeps the association list sorted in key
order. -/
theorem mapAssign_pairwise (k : Edge) (v : ℚ) :
    ∀ (m : List (Edge × ℚ)), m.Pairwise keyOrder →
      (mapAssign m k v).Pairwise keyOrder := by
  intro m
  induction m with
  | nil =>
      intro _
      simp [mapAssign]
  | cons q rest ih =>
      intro hm
      obtain ⟨k1, v1⟩ := q
      rw [List.pairwise_cons] at hm
      obtain ⟨hhead, hrest⟩ := hm
      simp only [mapAssign]
      split_ifs with h1 h2
      · rw [List.pairwise_cons]
        constructor
        · intro x hx
          simp only [List.mem_cons] at hx
          rcases hx with rfl | hx
          · exact h1
          · exact edge_lt_trans h1 (hhead x hx)
        · rw [List.pairwise_cons]
          exact ⟨hhead, hrest⟩
      · rw [List.pairwise_cons]
        exact ⟨fun x hx => hhead x hx, hrest⟩
      · rw [List.pairwise_cons]
        constructor
        · intro x hx
          rcases mapAssign_keys k v rest x hx with h | h
          · rw [keyOrder, h]
            exact edge_lt_connex h1 h2
          · obtain ⟨y, hy, hyx⟩ := List.mem_map.mp h
            rw [keyOrder, ← hyx]
            exact hhead y hy
        · exact ih hrest

/-- A fold preserves any invariant its step preserves. -/
theorem foldl_preserve {α β : Type} (P : α → Prop) (f : α → β → α)
    (hf : ∀ a b, P a → P (f a b)) :
    ∀ (l : List β) (a : α), P a → P (l.foldl f a) := by
  intro l
  induction l with
  | nil => intro a ha; exact ha
  | cons b l ih =>
      intro a ha
      exact ih (f a b) (hf a b ha)

/-- The weight table of `main` is sorted in `std::map` key order: that
order, not the input's order, is the order of the vector handed to the
sort. -/
theorem buildWeights_pairwise (adj : List (Edge × ℚ)) (numblocks : ℕ) :
    (buildWeights adj numblocks).Pairwise keyOrder := by
  unfold buildWeights
  refine foldl_preserve
    (fun m : List (Edge × ℚ) => m.Pairwise keyOrder) _ ?_ _ _ (by simp)
  intro m i hm
  refine foldl_preserve
    (fun m : List (Edge × ℚ) => m.Pairwise keyOrder) _ ?_ _ _ hm
  intro m2 j hm2
  dsimp only
  split_ifs
  · exact hm2
  · refine foldl_preserve
      (fun m : List (Edge × ℚ) => m.Pairwise keyOrder) _ ?_ _ _ hm2
    intro m3 dd hm3
    dsimp only
    split_ifs
    · exact mapAssign_pairwise _ _ m3 hm3
    · exact hm3

/-- Membership through the stable insertion. -/
theorem mem_insertSorted (p : Edge × ℚ) :
    ∀ (l : List (Edge × ℚ)) (q : Edge × ℚ),
      q ∈ insertSorted p l ↔ q = p ∨ q ∈ l := by
  intro l
  induction l with
  | nil => intro q; simp [insertSorted]
  | cons a l ih =>
      intro q
      simp only [insertSorted]
      split_ifs
      · exact List.mem_cons
      · simp only [List.mem_cons, ih]
        tauto

/-- C6 (amended): edges strictly below the minimum-weight threshold are
dropped by the greedy loop, and the remaining edges are processed in an
order of non-increasing weight.  The vector handed to `std::sort` lists
the weight table in `std::map` key order (lexicographic on
`(bid1, dir1, bid2, dir2)`), not in the input's insertion order, and
the comparator looks only at weights; `std::sort` is not stable, so the
relative order of equal-weight edges is implementation-defined — in
particular it is not the input's natural order.  The weight sequence of
the processed vector is nevertheless the same for every conforming sort
outcome, so the processing order is determined up to equal-weight ties,
and identical for reruns under a fixed sort implementation. -/
theorem assemble_edge_order (input : List (ℤ × ℤ × ℚ)) (minW : ℚ)
    (adj : List (Edge × ℚ)) (st : AsmState) (p : Edge × ℚ)
    (hp : p.2 < minW)
    (ve1 ve2 : List (Edge × ℚ))
    (h1 : sortSpec (buildWeights (buildAdjScores input) (numblocksOf input)) ve1)
    (h2 : sortSpec (buildWeights (buildAdjScores input) (numblocksOf input)) ve2) :
    (buildWeights (buildAdjScores input) (numblocksOf input)).Pairwise keyOrder ∧
    ve1.map (fun q => q.2) = ve2.map (fun q => q.2) ∧
    processEdge minW adj st p = st := by
  obtain ⟨hp1, hs1⟩ := h1
  obtain ⟨hp2, hs2⟩ := h2
  refine ⟨buildWeights_pairwise _ _, ?_, ?_⟩
  · exact @List.eq_of_perm_of_sorted ℚ (fun a b : ℚ => b ≤ a)
      ⟨fun a b hab hba => le_antisymm hba hab⟩ _ _
      ((hp1.trans hp2.symm).map (fun q => q.2))
      (List.pairwise_map.mpr hs1) (List.pairwise_map.mpr hs2)
  · unfold processEdge
    cases hm : mapFind adj { p.1 with weight := p.2 } <;> simp [hm, hp]

/-- Witness for `assemble_edge_order` at a concrete input, a concrete
pair of comparator-sorted permutations of its weight table, and a
below-threshold edge. -/
theorem assemble_edge_order_witness :
    ((0 : ℚ) < 1 ∧
      sortSpec (buildWeights (buildAdjScores [((1 : ℤ), (2 : ℤ), (1 : ℚ))])
          (numblocksOf [((1 : ℤ), (2 : ℤ), (1 : ℚ))]))
        (buildWeights (buildAdjScores [((1 : ℤ), (2 : ℤ), (1 : ℚ))])
          (numblocksOf [((1 : ℤ), (2 : ℤ), (1 : ℚ))]))) ∧
    ((buildWeights (buildAdjScores [((1 : ℤ), (2 : ℤ), (1 : ℚ))])
        (numblocksOf [((1 : ℤ), (2 : ℤ), (1 : ℚ))])).Pairwise keyOrder ∧
      (buildWeights (buildAdjScores [((1 : ℤ), (2 : ℤ), (1 : ℚ))])
          (numblocksOf [((1 : ℤ), (2 : ℤ), (1 : ℚ))])).map (fun q => q.2) =
        (buildWeights (buildAdjScores [((1 : ℤ), (2 : ℤ), (1 : ℚ))])
          (numblocksOf [((1 : ℤ), (2 : ℤ), (1 : ℚ))])).map (fun q => q.2) ∧
      processEdge 1 [] ⟨[], [], 0⟩ (⟨9, 1, 9, 1, 0, 0⟩, (0 : ℚ)) = ⟨[], [], 0⟩) :=
  ⟨⟨by norm_num, by constructor <;> decide⟩,
   assemble_edge_order [((1 : ℤ), (2 : ℤ), (1 : ℚ))] 1 [] ⟨[], [], 0⟩
     (⟨9, 1, 9, 1, 0, 0⟩, (0 : ℚ)) (by norm_num) _ _
     ⟨by decide, by decide⟩ ⟨by decide, by decide⟩⟩

/-- A flipped direction never equals the original. -/
theorem flip_ne (d : ℤ) : (if d = 1 then (-1 : ℤ) else 1) ≠ d := by
  split_ifs with h
  · omega
  · omega

/-- Reversal swaps the two consumed-end keys. -/
theorem key1_reverse (e : Edge) : key1 e.reverse = key2 e := by
  unfold key1 key2 Edge.reverse
  by_cases h : e.dir2 = 1 <;> simp [h]

/-- Reversal swaps the two consumed-end keys. -/
theorem key2_reverse (e : Edge) : key2 e.reverse = key1 e := by
  unfold key1 key2 Edge.reverse
  by_cases h : e.dir1 = 1 <;> simp [h]

/-- The key of the `bid1` side is zero exactly on the sentinel. -/
theorem key1_zero (e : Edge) : key1 e = 0 ↔ e.bid1 = 0 := by
  unfold key1
  split_ifs <;> omega

/-- The key of the `bid2` side is zero exactly on the sentinel. -/
theorem key2_zero (e : Edge) : key2 e = 0 ↔ e.bid2 = 0 := by
  unfold key2
  split_ifs <;> omega

/-- Registry membership after an insertion. -/
theorem mem_addUsed (m : List ℤ) (k x : ℤ) :
    x ∈ addUsed m k ↔ x = k ∨ x ∈ m := by
  unfold addUsed
  split_ifs with h
  · constructor
    · exact Or.inr
    · rintro (rfl | hx)
      · exact h
      · exact hx
  · simp [List.mem_cons]

/-- `le.front()` of a cons cell. -/
theorem frontE_cons (e : Edge) (le : List Edge) : frontE (e :: le) = e := rfl

/-- `le.front()` ignores a tail appended behind a nonempty list. -/
theorem frontE_append (le le2 : List Edge) (h : le ≠ []) :
    frontE (le ++ le2) = frontE le := by
  cases le with
  | nil => exact absurd rfl h
  | cons a l => rfl

/-- `le.back()` of a cons cell with nonempty tail. -/
theorem backE_cons (e : Edge) (le : List Edge) (h : le ≠ []) :
    backE (e :: le) = backE le := by
  cases le with
  | nil => exact absurd rfl h
  | cons a l => rfl

/-- `le.back()` of a snoc. -/
theorem backE_append_single : ∀ (le : List Edge) (e : Edge),
    backE (le ++ [e]) = e := by
  intro le
  induction le with
  | nil => intro e; rfl
  | cons a l ih =>
      intro e
      rw [List.cons_append, backE_cons _ _ (by simp), ih]

/-- `le.back()` through an append with nonempty second part. -/
theorem backE_append (le le2 : List Edge) (h : le2 ≠ []) :
    backE (le ++ le2) = backE le2 := by
  induction le with
  | nil => rfl
  | cons a l ih =>
      rw [List.cons_append, backE_cons _ _ (by simp [h]), ih]

/-- Front of the element-reversed, order-reversed copy of a chain. -/
theorem frontE_revmap : ∀ le : List Edge, le ≠ [] →
    frontE ((le.map Edge.reverse).reverse) = Edge.reverse (backE le) := by
  intro le
  induction le with
  | nil => intro h; exact absurd rfl h
  | cons e l ih =>
      intro _
      cases l with
      | nil => rfl
      | cons a l2 =>
          rw [List.map_cons, List.reverse_cons,
            frontE_append _ _ (by simp), ih (by simp),
            backE_cons e (a :: l2) (by simp)]

/-- Back of the element-reversed, order-reversed copy of a chain. -/
theorem backE_revmap (le : List Edge) (h : le ≠ []) :
    backE ((le.map Edge.reverse).reverse) = Edge.reverse (frontE le) := by
  cases le with
  | nil => exact absurd rfl h
  | cons e l =>
      rw [List.map_cons, List.reverse_cons, backE_append_single]
      rfl

/-- Consumed-end keys of an extended chain. -/
theorem chainUses_cons (e : Edge) (le : List Edge) (k : ℤ) :
    chainUses (e :: le) k ↔
      (k ≠ 0 ∧ (k = key1 e ∨ k = key2 e)) ∨ chainUses le k := by
  unfold chainUses
  simp only [List.mem_cons]
  constructor
  · rintro ⟨hk, x, (rfl | hx), hkey⟩
    · exact Or.inl ⟨hk, hkey⟩
    · exact Or.inr ⟨hk, x, hx, hkey⟩
  · rintro (⟨hk, hkey⟩ | ⟨hk, x, hx, hkey⟩)
    · exact ⟨hk, e, Or.inl rfl, hkey⟩
    · exact ⟨hk, x, Or.inr hx, hkey⟩

/-- Consumed-end keys of a concatenation. -/
theorem chainUses_append (le1 le2 : List Edge) (k : ℤ) :
    chainUses (le1 ++ le2) k ↔ chainUses le1 k ∨ chainUses le2 k := by
  unfold chainUses
  simp only [List.mem_append]
  constructor
  · rintro ⟨hk, x, (hx | hx), hkey⟩
    · exact Or.inl ⟨hk, x, hx, hkey⟩
    · exact Or.inr ⟨hk, x, hx, hkey⟩
  · rintro (⟨hk, x, hx, hkey⟩ | ⟨hk, x, hx, hkey⟩)
    · exact ⟨hk, x, Or.inl hx, hkey⟩
    · exact ⟨hk, x, Or.inr hx, hkey⟩

/-- Reversing a chain (elements and order) keeps its consumed ends. -/
theorem chainUses_revmap (le : List Edge) (k : ℤ) :
    chainUses ((le.map Edge.reverse).reverse) k ↔ chainUses le k := by
  unfold chainUses
  simp only [List.mem_reverse, List.mem_map]
  constructor
  · rintro ⟨hk, x, ⟨y, hy, rfl⟩, hkey⟩
    rw [key1_reverse, key2_reverse] at hkey
    exact ⟨hk, y, hy, Or.symm hkey⟩
  · rintro ⟨hk, x, hx, hkey⟩
    refine ⟨hk, x.reverse, ⟨x, hx, rfl⟩, ?_⟩
    rw [key1_reverse, key2_reverse]
    exact Or.symm hkey

/-- A lookup hit is a table entry. -/
theorem lookupClass_mem : ∀ (m : List (ℕ × List Edge)) (j : ℕ) (le : List Edge),
    lookupClass m j = some le → (j, le) ∈ m := by
  intro m
  induction m with
  | nil => intro j le h; simp [lookupClass] at h
  | cons q rest ih =>
      intro j le h
      obtain ⟨k, v⟩ := q
      simp only [lookupClass] at h
      split_ifs at h with hk
      · rw [Option.some_inj] at h
        subst hk
        subst h
        simp
      · exact List.mem_cons_of_mem _ (ih j le h)

/-- Membership in an erased table. -/
theorem mem_eraseClass (m : List (ℕ × List Edge)) (j : ℕ) (p : ℕ × List Edge) :
    p ∈ eraseClass m j ↔ p ∈ m ∧ p.1 ≠ j := by
  unfold eraseClass
  simp [List.mem_filter]

/-- Membership in an updated table, forward direction. -/
theorem updateClass_mem (m : List (ℕ × List Edge)) (cid : ℕ) (le : List Edge)
    (p : ℕ × List Edge) (hp : p ∈ updateClass m cid le) :
    (p = (cid, le) ∧ ∃ q ∈ m, q.1 = cid) ∨ (p ∈ m ∧ p.1 ≠ cid) := by
  unfold updateClass at hp
  obtain ⟨q, hq, hqe⟩ := List.mem_map.mp hp
  by_cases h : q.1 = cid
  · rw [if_pos h] at hqe
    exact Or.inl ⟨hqe.symm, q, hq, h⟩
  · rw [if_neg h] at hqe
    subst hqe
    exact Or.inr ⟨hq, h⟩

/-- An entry of another class survives an update unchanged. -/
theorem updateClass_mem_of (m : List (ℕ × List Edge)) (cid : ℕ) (le : List Edge)
    (q : ℕ × List Edge) (hq : q ∈ m) (h : q.1 ≠ cid) :
    q ∈ updateClass m cid le := by
  unfold updateClass
  refine List.mem_map.mpr ⟨q, hq, ?_⟩
  rw [if_neg h]

/-- The updated class is present whenever the id is present. -/
theorem updateClass_mem_self (m : List (ℕ × List Edge)) (cid : ℕ)
    (le : List Edge) (h : ∃ v, (cid, v) ∈ m) :
    (cid, le) ∈ updateClass m cid le := by
  obtain ⟨v, hv⟩ := h
  unfold updateClass
  refine List.mem_map.mpr ⟨(cid, v), hv, ?_⟩
  rw [if_pos rfl]

/-- Updating twice with the same chain is one update. -/
theorem updateClass_idem (m : List (ℕ × List Edge)) (cid : ℕ) (le : List Edge) :
    updateClass (updateClass m cid le) cid le = updateClass m cid le := by
  unfold updateClass
  rw [List.map_map]
  apply List.map_congr_left
  intro p _
  by_cases h : p.1 = cid <;> simp [h]

/-- Reversal swaps the id fields. -/
theorem reverse_bid1 (e : Edge) : e.reverse.bid1 = e.bid2 := rfl

/-- Reversal swaps the id fields. -/
theorem reverse_bid2 (e : Edge) : e.reverse.bid2 = e.bid1 := rfl

/-- Reversal flips the direction fields. -/
theorem reverse_dir1 (e : Edge) :
    e.reverse.dir1 = if e.dir2 = 1 then -1 else 1 := rfl

/-- Reversal flips the direction fields. -/
theorem reverse_dir2 (e : Edge) :
    e.reverse.dir2 = if e.dir1 = 1 then -1 else 1 := rfl

/-- Consumed ends of a singleton chain. -/
theorem chainUses_singleton (e : Edge) (k : ℤ) :
    chainUses [e] k ↔ k ≠ 0 ∧ (k = key1 e ∨ k = key2 e) := by
  unfold chainUses
  simp

/-- Closure of an extended chain. -/
theorem isClosed_cons (e : Edge) (le : List Edge) (h : le ≠ []) :
    isClosed (e :: le) ↔
      (backE le).bid2 = e.bid1 ∧ (backE le).dir2 = e.dir1 ∧ e.bid1 ≠ 0 := by
  unfold isClosed
  rw [frontE_cons, backE_cons _ _ h]
  simp

/-- Closure of a chain extended at the back. -/
theorem isClosed_append_single (le : List Edge) (e : Edge) (h : le ≠ []) :
    isClosed (le ++ [e]) ↔
      e.bid2 = (frontE le).bid1 ∧ e.dir2 = (frontE le).dir1 ∧
        (frontE le).bid1 ≠ 0 := by
  unfold isClosed
  rw [frontE_append _ _ h, backE_append_single]
  simp

/-- Registered key shape used by `insertEdge` on the `bid1` side. -/
theorem addUsed_key1 (m : List ℤ) (x : Edge) :
    key1 x ∈ (if x.dir1 = 1 then addUsed m (-x.bid1) else addUsed m x.bid1) := by
  unfold key1
  split_ifs <;> simp [mem_addUsed]

/-- Registered key shape used by `insertEdge` on the `bid2` side. -/
theorem addUsed_key2 (m : List ℤ) (x : Edge) :
    key2 x ∈ (if x.dir2 = 1 then addUsed m x.bid2 else addUsed m (-x.bid2)) := by
  unfold key2
  split_ifs <;> simp [mem_addUsed]

/-- Registry growth through a conditional insertion. -/
theorem mem_if_addUsed {c : Prop} [Decidable c] (m : List ℤ) (k1 k2 x : ℤ)
    (h : x ∈ m) : x ∈ (if c then addUsed m k1 else addUsed m k2) := by
  split_ifs <;> simp [mem_addUsed, h]

/-- Registry growth through one insertion. -/
theorem mem_addUsed_of (m : List ℤ) (k x : ℤ) (h : x ∈ m) :
    x ∈ addUsed m k := (mem_addUsed m k x).mpr (Or.inr h)

/-- The inserted key is registered. -/
theorem addUsed_self (m : List ℤ) (k : ℤ) : k ∈ addUsed m k :=
  (mem_addUsed m k k).mpr (Or.inl rfl)

/-- A key over a block both of whose end keys are registered is
registered. -/
theorem pm_mem_key1 (e : Edge) (b : ℤ) (hb : e.bid1 = b) (m : List ℤ)
    (h1 : b ∈ m) (h2 : -b ∈ m) : key1 e ∈ m := by
  unfold key1
  split_ifs <;> simp [hb, h1, h2]

/-- A key over a block both of whose end keys are registered is
registered. -/
theorem pm_mem_key2 (e : Edge) (b : ℤ) (hb : e.bid2 = b) (m : List ℤ)
    (h1 : b ∈ m) (h2 : -b ∈ m) : key2 e ∈ m := by
  unfold key2
  split_ifs <;> simp [hb, h1, h2]

/-- What a successful `insertEdge` produces: a nonempty chain that is
not closed into a cycle, consuming only the old chain's ends plus the
edge's two ends; the registry only grows and ends with both of the
edge's end keys registered. -/
theorem insertEdge_success (le : List Edge) (e : Edge) (used : List ℤ)
    (hne : le ≠ []) (le' : List Edge) (e' : Edge) (used' : List ℤ)
    (h : insertEdge le e used = (Res.SUCCESS, le', e', used')) :
    le' ≠ [] ∧ ¬ isClosed le' ∧
    (∀ k : ℤ, chainUses le' k → chainUses le k ∨ (k = key1 e ∨ k = key2 e)) ∧
    (∀ x ∈ used, x ∈ used') ∧ key1 e ∈ used' ∧ key2 e ∈ used' := by
  revert h
  simp only [insertEdge]
  split_ifs with h1 h2 h3 h4 h5 h6 h7 h8 h9 h10 h11 h12 <;> intro h
  all_goals try (apply absurd h; simp; done)
  all_goals
    simp only [Prod.mk.injEq, true_and] at h
    obtain ⟨hle, he, hused⟩ := h
    subst hle
    subst he
    subst hused
  -- case 1 (prepend reversed), inner registration if true
  · refine ⟨by simp, ?_, ?_, ?_, ?_, ?_⟩
    · rw [isClosed_cons _ _ hne]
      rintro ⟨hb, hd, -⟩
      refine h2 ⟨hb.trans (reverse_bid1 e), ?_⟩
      rw [hd, reverse_dir1]
      exact flip_ne e.dir2
    · intro k hk
      rw [chainUses_cons] at hk
      rcases hk with ⟨hk0, hkey⟩ | hk
      · rw [key1_reverse, key2_reverse] at hkey
        exact Or.inr (Or.symm hkey)
      · exact Or.inl hk
    · intro x hx
      exact mem_addUsed_of _ _ _ (mem_addUsed_of _ _ _ (mem_addUsed_of _ _ _ hx))
    · refine pm_mem_key1 e ((frontE le).bid1) h1.1.symm _ ?_ ?_
      · exact mem_addUsed_of _ _ _ (mem_addUsed_of _ _ _ (addUsed_self _ _))
      · exact mem_addUsed_of _ _ _ (addUsed_self _ _)
    · rw [← key1_reverse]
      unfold key1
      rw [if_pos h3]
      exact addUsed_self _ _
  -- case 1, inner registration if false
  · refine ⟨by simp, ?_, ?_, ?_, ?_, ?_⟩
    · rw [isClosed_cons _ _ hne]
      rintro ⟨hb, hd, -⟩
      refine h2 ⟨hb.trans (reverse_bid1 e), ?_⟩
      rw [hd, reverse_dir1]
      exact flip_ne e.dir2
    · intro k hk
      rw [chainUses_cons] at hk
      rcases hk with ⟨hk0, hkey⟩ | hk
      · rw [key1_reverse, key2_reverse] at hkey
        exact Or.inr (Or.symm hkey)
      · exact Or.inl hk
    · intro x hx
      exact mem_addUsed_of _ _ _ (mem_addUsed_of _ _ _ (mem_addUsed_of _ _ _ hx))
    · refine pm_mem_key1 e ((frontE le).bid1) h1.1.symm _ ?_ ?_
      · exact mem_addUsed_of _ _ _ (mem_addUsed_of _ _ _ (addUsed_self _ _))
      · exact mem_addUsed_of _ _ _ (addUsed_self _ _)
    · rw [← key1_reverse]
      unfold key1
      rw [if_neg h3]
      exact addUsed_self _ _
  -- case 2 (prepend same direction), inner registration if true
  · refine ⟨by simp, ?_, ?_, ?_, ?_, ?_⟩
    · rw [isClosed_cons _ _ hne]
      rintro ⟨hb, hd, -⟩
      exact h6 ⟨hb, hd⟩
    · intro k hk
      rw [chainUses_cons] at hk
      rcases hk with ⟨hk0, hkey⟩ | hk
      · exact Or.inr hkey
      · exact Or.inl hk
    · intro x hx
      exact mem_addUsed_of _ _ _ (mem_addUsed_of _ _ _ (mem_addUsed_of _ _ _ hx))
    · unfold key1
      rw [if_pos h7]
      exact addUsed_self _ _
    · refine pm_mem_key2 e ((frontE le).bid1) h4.1.symm _ ?_ ?_
      · exact mem_addUsed_of _ _ _ (mem_addUsed_of _ _ _ (addUsed_self _ _))
      · exact mem_addUsed_of _ _ _ (addUsed_self _ _)
  -- case 2, inner registration if false
  · refine ⟨by simp, ?_, ?_, ?_, ?_, ?_⟩
    · rw [isClosed_cons _ _ hne]
      rintro ⟨hb, hd, -⟩
      exact h6 ⟨hb, hd⟩
    · intro k hk
      rw [chainUses_cons] at hk
      rcases hk with ⟨hk0, hkey⟩ | hk
      · exact Or.inr hkey
      · exact Or.inl hk
    · intro x hx
      exact mem_addUsed_of _ _ _ (mem_addUsed_of _ _ _ (mem_addUsed_of _ _ _ hx))
    · unfold key1
      rw [if_neg h7]
      exact addUsed_self _ _
    · refine pm_mem_key2 e ((frontE le).bid1) h4.1.symm _ ?_ ?_
      · exact mem_addUsed_of _ _ _ (mem_addUsed_of _ _ _ (addUsed_self _ _))
      · exact mem_addUsed_of _ _ _ (addUsed_self _ _)
  -- case 3 (append same direction), inner registration if true
  · refine ⟨by simp, ?_, ?_, ?_, ?_, ?_⟩
    · rw [isClosed_append_single _ _ hne]
      rintro ⟨hb, hd, -⟩
      exact h4 ⟨hb.symm, hd.symm⟩
    · intro k hk
      rw [chainUses_append, chainUses_singleton] at hk
      rcases hk with hk | ⟨hk0, hkey⟩
      · exact Or.inl hk
      · exact Or.inr hkey
    · intro x hx
      exact mem_addUsed_of _ _ _ (mem_addUsed_of _ _ _ (mem_addUsed_of _ _ _ hx))
    · refine pm_mem_key1 e ((backE le).bid2) h8.1.symm _ ?_ ?_
      · exact mem_addUsed_of _ _ _ (mem_addUsed_of _ _ _ (addUsed_self _ _))
      · exact mem_addUsed_of _ _ _ (addUsed_self _ _)
    · unfold key2
      rw [if_pos h10]
      exact addUsed_self _ _
  -- case 3, inner registration if false
  · refine ⟨by simp, ?_, ?_, ?_, ?_, ?_⟩
    · rw [isClosed_append_single _ _ hne]
      rintro ⟨hb, hd, -⟩
      exact h4 ⟨hb.symm, hd.symm⟩
    · intro k hk
      rw [chainUses_append, chainUses_singleton] at hk
      rcases hk with hk | ⟨hk0, hkey⟩
      · exact Or.inl hk
      · exact Or.inr hkey
    · intro x hx
      exact mem_addUsed_of _ _ _ (mem_addUsed_of _ _ _ (mem_addUsed_of _ _ _ hx))
    · refine pm_mem_key1 e ((backE le).bid2) h8.1.symm _ ?_ ?_
      · exact mem_addUsed_of _ _ _ (mem_addUsed_of _ _ _ (addUsed_self _ _))
      · exact mem_addUsed_of _ _ _ (addUsed_self _ _)
    · unfold key2
      rw [if_neg h10]
      exact addUsed_self _ _
  -- case 4 (append reversed), inner registration if true
  · refine ⟨by simp, ?_, ?_, ?_, ?_, ?_⟩
    · rw [isClosed_append_single _ _ hne]
      rintro ⟨hb, hd, -⟩
      refine h1 ⟨(hb.symm.trans (reverse_bid2 e)), fun heq => ?_⟩
      exact flip_ne e.dir1 ((reverse_dir2 e).symm.trans (hd.trans heq))
    · intro k hk
      rw [chainUses_append, chainUses_singleton] at hk
      rcases hk with hk | ⟨hk0, hkey⟩
      · exact Or.inl hk
      · rw [key1_reverse, key2_reverse] at hkey
        exact Or.inr (Or.symm hkey)
    · intro x hx
      exact mem_addUsed_of _ _ _ (mem_addUsed_of _ _ _ (mem_addUsed_of _ _ _ hx))
    · rw [← key2_reverse]
      unfold key2
      rw [if_pos h12]
      exact addUsed_self _ _
    · refine pm_mem_key2 e ((backE le).bid2) h11.1.symm _ ?_ ?_
      · exact mem_addUsed_of _ _ _ (mem_addUsed_of _ _ _ (addUsed_self _ _))
      · exact mem_addUsed_of _ _ _ (addUsed_self _ _)
  -- case 4, inner registration if false
  · refine ⟨by simp, ?_, ?_, ?_, ?_, ?_⟩
    · rw [isClosed_append_single _ _ hne]
      rintro ⟨hb, hd, -⟩
      refine h1 ⟨(hb.symm.trans (reverse_bid2 e)), fun heq => ?_⟩
      exact flip_ne e.dir1 ((reverse_dir2 e).symm.trans (hd.trans heq))
    · intro k hk
      rw [chainUses_append, chainUses_singleton] at hk
      rcases hk with hk | ⟨hk0, hkey⟩
      · exact Or.inl hk
      · rw [key1_reverse, key2_reverse] at hkey
        exact Or.inr (Or.symm hkey)
    · intro x hx
      exact mem_addUsed_of _ _ _ (mem_addUsed_of _ _ _ (mem_addUsed_of _ _ _ hx))
    · rw [← key2_reverse]
      unfold key2
      rw [if_neg h12]
      exact addUsed_self _ _
    · refine pm_mem_key2 e ((backE le).bid2) h11.1.symm _ ?_ ?_
      · exact mem_addUsed_of _ _ _ (mem_addUsed_of _ _ _ (addUsed_self _ _))
      · exact mem_addUsed_of _ _ _ (addUsed_self _ _)

/-- What a hit of the chain scan means: the first chain that does not
`FAIL`, with the `insertEdge` results. -/
theorem scanChains_some (e : Edge) (used : List ℤ) :
    ∀ (classes : List (ℕ × List Edge)) (cid : ℕ) (res : Res)
      (le' : List Edge) (e' : Edge) (used' : List ℤ),
      scanChains e used classes = some (cid, res, le', e', used') →
      ∃ le, (cid, le) ∈ classes ∧
        insertEdge le e used = (res, le', e', used') ∧ res ≠ Res.FAIL := by
  intro classes
  induction classes with
  | nil =>
      intro cid res le' e' used' h
      simp [scanChains] at h
  | cons q rest ih =>
      intro cid res le' e' used' h
      obtain ⟨c, le⟩ := q
      simp only [scanChains] at h
      split_ifs at h with hf
      · obtain ⟨le0, hm, hi, hr⟩ := ih _ _ _ _ _ h
        exact ⟨le0, List.mem_cons_of_mem _ hm, hi, hr⟩
      · rw [Option.some_inj] at h
        simp only [Prod.mk.injEq] at h
        obtain ⟨hc, hres, hle, he, hused⟩ := h
        subst hc
        subst hres
        subst hle
        subst he
        subst hused
        exact ⟨le, by simp, rfl, hf⟩

/-- Merging another chain in preserves the invariant, for any merged
chain that is nonempty, open, and consumes only ends of the two merged
chains. -/
theorem merge_case_preserve (used : List ℤ) (cid j : ℕ)
    (classes : List (ℕ × List Edge)) (le1 le2 le1' : List Edge)
    (hj : j ≠ cid) (hl2 : lookupClass classes j = some le2)
    (hInv : Inv used (updateClass classes cid le1))
    (hcid : ∃ v, (cid, v) ∈ classes)
    (hne : le1' ≠ [])
    (hopen : ¬ isClosed le1')
    (huses : ∀ k, chainUses le1' k → chainUses le1 k ∨ chainUses le2 k) :
    Inv used (updateClass (eraseClass classes j) cid le1') ∧
    (∃ v, (cid, v) ∈ eraseClass classes j) := by
  obtain ⟨hn, ho, hu, hd⟩ := hInv
  obtain ⟨v0, hv0⟩ := hcid
  have hj2mem : (j, le2) ∈ classes := lookupClass_mem _ _ _ hl2
  have hj2mem1 : (j, le2) ∈ updateClass classes cid le1 :=
    updateClass_mem_of _ _ _ _ hj2mem hj
  have hcid1 : (cid, le1) ∈ updateClass classes cid le1 :=
    updateClass_mem_self _ _ _ ⟨v0, hv0⟩
  have hmem : ∀ p ∈ updateClass (eraseClass classes j) cid le1',
      p = (cid, le1') ∨
        (p ∈ updateClass classes cid le1 ∧ p.1 ≠ cid ∧ p.1 ≠ j) := by
    intro p hp
    rcases updateClass_mem _ _ _ _ hp with ⟨rfl, -⟩ | ⟨hpin, hpne⟩
    · exact Or.inl rfl
    · rw [mem_eraseClass] at hpin
      exact Or.inr ⟨updateClass_mem_of _ _ _ _ hpin.1 hpne, hpne, hpin.2⟩
  have huse1 : ∀ k, chainUses le1' k → k ∈ used := by
    intro k hk
    rcases huses k hk with h | h
    · exact hu _ hcid1 k h
    · exact hu _ hj2mem1 k h
  refine ⟨⟨?_, ?_, ?_, ?_⟩, ?_⟩
  · intro p hp
    rcases hmem p hp with rfl | ⟨hpin, -, -⟩
    · exact hne
    · exact hn p hpin
  · intro p hp
    rcases hmem p hp with rfl | ⟨hpin, -, -⟩
    · exact hopen
    · exact ho p hpin
  · intro p hp k hk
    rcases hmem p hp with rfl | ⟨hpin, -, -⟩
    · exact huse1 k hk
    · exact hu p hpin k hk
  · rintro p hp q hq hpq k ⟨hkp, hkq⟩
    rcases hmem p hp with rfl | ⟨hpin, hpcid, hpj⟩ <;>
      rcases hmem q hq with rfl | ⟨hqin, hqcid, hqj⟩
    · exact hpq rfl
    · rcases huses k hkp with h | h
      · exact hd _ hcid1 q hqin hpq k ⟨h, hkq⟩
      · exact hd _ hj2mem1 q hqin (Ne.symm hqj) k ⟨h, hkq⟩
    · rcases huses k hkq with h | h
      · exact hd p hpin _ hcid1 hpcid k ⟨hkp, h⟩
      · exact hd p hpin _ hj2mem1 hpj k ⟨hkp, h⟩
    · exact hd p hpin q hqin hpq k ⟨hkp, hkq⟩
  · exact ⟨v0, (mem_eraseClass _ _ _).mpr ⟨hv0, Ne.symm hj⟩⟩

/-- One step of the `mergeLists` scan preserves the invariant, in the
virtual state where class `cid` holds the growing chain. -/
theorem mergeStep_preserve (used : List ℤ) (cid : ℕ)
    (st : List Edge × List (ℕ × List Edge)) (jj : ℕ)
    (hInv : Inv used (updateClass st.2 cid st.1))
    (hcid : ∃ v, (cid, v) ∈ st.2) :
    Inv used
      (updateClass (mergeStep cid st jj).2 cid (mergeStep cid st jj).1) ∧
    (∃ v, (cid, v) ∈ (mergeStep cid st jj).2) := by
  obtain ⟨le1, classes⟩ := st
  simp only [mergeStep]
  by_cases hj : jj + 1 = cid
  · rw [if_pos hj]
    exact ⟨hInv, hcid⟩
  · rw [if_neg hj]
    cases hl : lookupClass classes (jj + 1) with
    | none => exact ⟨hInv, hcid⟩
    | some le2 =>
        have hle1ne : le1 ≠ [] :=
          hInv.1 _ (updateClass_mem_self _ _ _ hcid)
        have hle2ne : le2 ≠ [] :=
          hInv.1 _ (updateClass_mem_of _ _ _ _ (lookupClass_mem _ _ _ hl) hj)
        have hrev2ne : (le2.map Edge.reverse).reverse ≠ [] := by
          simp [hle2ne]
        dsimp only
        split_ifs with c1 g1 c2 g2 c3 g3 c4 g4
        · -- front matches front: prepend reversed copy
          dsimp only
          apply merge_case_preserve used cid (jj+1) classes le1 le2 _ hj hl
            hInv hcid
          · simp [hle1ne]
          · rintro ⟨-, hb, hd, hz⟩
            rw [backE_append _ _ hle1ne, frontE_append _ _ hrev2ne,
              frontE_revmap le2 hle2ne, reverse_bid1] at hb
            rw [frontE_append _ _ hrev2ne, frontE_revmap le2 hle2ne,
              reverse_bid1] at hz
            rcases g1 with h | h | h <;> omega
          · intro k hk
            rw [chainUses_append, chainUses_revmap] at hk
            exact hk.symm
        · exact ⟨hInv, hcid⟩
        · -- front matches back: prepend copy
          dsimp only
          apply merge_case_preserve used cid (jj+1) classes le1 le2 _ hj hl
            hInv hcid
          · simp [hle1ne]
          · rintro ⟨-, hb, hd, hz⟩
            rw [backE_append _ _ hle1ne, frontE_append _ _ hle2ne] at hb
            rw [frontE_append _ _ hle2ne] at hz
            rcases g2.2 with h | h | h <;> omega
          · intro k hk
            rw [chainUses_append] at hk
            exact hk.symm
        · exact ⟨hInv, hcid⟩
        · -- back matches front: append copy
          dsimp only
          apply merge_case_preserve used cid (jj+1) classes le1 le2 _ hj hl
            hInv hcid
          · simp [hle1ne]
          · rintro ⟨-, hb, hd, hz⟩
            rw [backE_append _ _ hle2ne, frontE_append _ _ hle1ne] at hb
            rw [frontE_append _ _ hle1ne] at hz
            rcases g3.2 with h | h | h <;> omega
          · intro k hk
            rw [chainUses_append] at hk
            exact hk
        · exact ⟨hInv, hcid⟩
        · -- back matches back: append reversed copy
          dsimp only
          apply merge_case_preserve used cid (jj+1) classes le1 le2 _ hj hl
            hInv hcid
          · simp [hle1ne]
          · rintro ⟨-, hb, hd, hz⟩
            rw [backE_append _ _ hrev2ne, frontE_append _ _ hle1ne,
              backE_revmap le2 hle2ne, reverse_bid2] at hb
            rw [frontE_append _ _ hle1ne] at hz
            rcases g4 with h | h | h <;> omega
          · intro k hk
            rw [chainUses_append, chainUses_revmap] at hk
            exact hk
        · exact ⟨hInv, hcid⟩
        · exact ⟨hInv, hcid⟩

/-- The whole `mergeLists` scan preserves the invariant in the virtual
state where class `cid` holds the growing chain. -/
theorem mergeFold_preserve (used : List ℤ) (cid : ℕ) :
    ∀ (js : List ℕ) (st : List Edge × List (ℕ × List Edge)),
      Inv used (updateClass st.2 cid st.1) →
      (∃ v, (cid, v) ∈ st.2) →
      Inv used
        (updateClass (js.foldl (mergeStep cid) st).2 cid
          (js.foldl (mergeStep cid) st).1) ∧
      (∃ v, (cid, v) ∈ (js.foldl (mergeStep cid) st).2) := by
  intro js
  induction js with
  | nil =>
      intro st h1 h2
      exact ⟨h1, h2⟩
  | cons jj js ih =>
      intro st h1 h2
      rw [List.foldl_cons]
      obtain ⟨h1a, h2a⟩ := mergeStep_preserve used cid st jj h1 h2
      exact ih _ h1a h2a

/-- The used-check of `main` in terms of the end key. -/
theorem if_mem_key1 (e : Edge) (m : List ℤ) :
    (if e.dir1 = 1 then -e.bid1 ∈ m else e.bid1 ∈ m) ↔ key1 e ∈ m := by
  by_cases h : e.dir1 = 1 <;> simp [key1, h]

/-- The used-check of `main` in terms of the end key. -/
theorem if_mem_key2 (e : Edge) (m : List ℤ) :
    (if e.dir2 = 1 then e.bid2 ∈ m else -e.bid2 ∈ m) ↔ key2 e ∈ m := by
  by_cases h : e.dir2 = 1 <;> simp [key2, h]

/-- Opening a new singleton chain preserves the invariant: its ends
were unregistered before (the pre-check) and are registered with it. -/
theorem new_chain_inv (used used2 : List ℤ) (classes : List (ℕ × List Edge))
    (clscnt : ℕ) (e : Edge)
    (hbid : e.bid1 ≠ e.bid2) (hInv : Inv used classes)
    (hsub : ∀ x ∈ used, x ∈ used2)
    (hk1 : key1 e ≠ 0 → key1 e ∈ used2)
    (hk2 : key2 e ≠ 0 → key2 e ∈ used2)
    (hn1 : key1 e ≠ 0 → key1 e ∉ used)
    (hn2 : key2 e ≠ 0 → key2 e ∉ used) :
    Inv used2 (classes ++ [(clscnt + 1, [e])]) := by
  obtain ⟨hn, ho, hu, hd⟩ := hInv
  have hmem : ∀ q : ℕ × List Edge, q ∈ classes ++ [(clscnt + 1, [e])] →
      q ∈ classes ∨ q = (clscnt + 1, [e]) := by
    intro q hq
    rcases List.mem_append.mp hq with h | h
    · exact Or.inl h
    · exact Or.inr (by simpa using h)
  refine ⟨?_, ?_, ?_, ?_⟩
  · intro q hq
    rcases hmem q hq with h | rfl
    · exact hn q h
    · simp
  · intro q hq
    rcases hmem q hq with h | rfl
    · exact ho q h
    · rintro ⟨-, hb, -, -⟩
      exact hbid (by simpa [frontE, backE] using hb.symm)
  · intro q hq k hk
    rcases hmem q hq with h | rfl
    · exact hsub _ (hu q h k hk)
    · rcases (chainUses_singleton e k).mp hk with ⟨hk0, rfl | rfl⟩
      · exact hk1 hk0
      · exact hk2 hk0
  · rintro q hq r hr hqr k ⟨hkq, hkr⟩
    rcases hmem q hq with h1 | rfl <;> rcases hmem r hr with h2 | rfl
    · exact hd q h1 r h2 hqr k ⟨hkq, hkr⟩
    · rcases (chainUses_singleton e k).mp hkr with ⟨hk0, rfl | rfl⟩
      · exact hn1 hk0 (hu q h1 _ hkq)
      · exact hn2 hk0 (hu q h1 _ hkq)
    · rcases (chainUses_singleton e k).mp hkq with ⟨hk0, rfl | rfl⟩
      · exact hn1 hk0 (hu r h2 _ hkr)
      · exact hn2 hk0 (hu r h2 _ hkr)
    · exact hqr rfl

/-- `new_chain_inv` specialised to the literal registry update the
`else`-branch of `main` performs. -/
theorem new_chain_inv_applied (used : List ℤ) (classes : List (ℕ × List Edge))
    (clscnt : ℕ) (e : Edge)
    (hbid : e.bid1 ≠ e.bid2) (hInv : Inv used classes)
    (hc1 : ¬(e.bid1 ≠ 0 ∧ key1 e ∈ used))
    (hc2 : ¬(e.bid2 ≠ 0 ∧ key2 e ∈ used)) :
    Inv (if e.bid2 ≠ 0 then
          (if e.dir2 = 1 then
            addUsed (if e.bid1 ≠ 0 then
                (if e.dir1 = 1 then addUsed used (-e.bid1) else addUsed used e.bid1)
              else used) e.bid2
           else
            addUsed (if e.bid1 ≠ 0 then
                (if e.dir1 = 1 then addUsed used (-e.bid1) else addUsed used e.bid1)
              else used) (-e.bid2))
        else
          (if e.bid1 ≠ 0 then
            (if e.dir1 = 1 then addUsed used (-e.bid1) else addUsed used e.bid1)
          else used))
      (classes ++ [(clscnt + 1, [e])]) := by
  apply new_chain_inv used _ classes clscnt e hbid hInv
  · intro x hx
    split_ifs <;> (repeat first | exact hx | apply mem_addUsed_of)
  · intro hk
    have hb1 : e.bid1 ≠ 0 := fun h0 => hk ((key1_zero e).mpr h0)
    have h1 : key1 e ∈ (if e.bid1 ≠ 0 then
        (if e.dir1 = 1 then addUsed used (-e.bid1) else addUsed used e.bid1)
      else used) := by
      rw [if_pos hb1]
      exact addUsed_key1 used e
    have h2 : ∀ m : List ℤ, key1 e ∈ m →
        key1 e ∈ (if e.bid2 ≠ 0 then
          (if e.dir2 = 1 then addUsed m e.bid2 else addUsed m (-e.bid2))
        else m) := by
      intro m hm
      split_ifs <;> first | exact hm | exact mem_addUsed_of _ _ _ hm
    exact h2 _ h1
  · intro hk
    have hb2 : e.bid2 ≠ 0 := fun h0 => hk ((key2_zero e).mpr h0)
    rw [if_pos hb2]
    exact addUsed_key2 _ e
  · intro hk hmem
    exact hc1 ⟨fun h0 => hk ((key1_zero e).mpr h0), hmem⟩
  · intro hk hmem
    exact hc2 ⟨fun h0 => hk ((key2_zero e).mpr h0), hmem⟩

/-- A successful insertion followed by the merge scan preserves the
invariant. -/
theorem success_inv (used : List ℤ) (classes : List (ℕ × List Edge))
    (clscnt : ℕ) (e : Edge) (cid : ℕ) (res : Res) (le1 : List Edge)
    (e1 : Edge) (used1 : List ℤ)
    (hInv : Inv used classes)
    (hc1 : ¬(e.bid1 ≠ 0 ∧ key1 e ∈ used))
    (hc2 : ¬(e.bid2 ≠ 0 ∧ key2 e ∈ used))
    (hs : scanChains e used classes = some (cid, res, le1, e1, used1))
    (hres : res = Res.SUCCESS) :
    Inv used1
      (updateClass (mergeLists clscnt cid le1 (updateClass classes cid le1)).2
        cid (mergeLists clscnt cid le1 (updateClass classes cid le1)).1) := by
  subst hres
  obtain ⟨le, hle_mem, hie, -⟩ :=
    scanChains_some e used classes cid _ le1 e1 used1 hs
  have hlene : le ≠ [] := hInv.1 _ hle_mem
  obtain ⟨hne1, hopen1, huses1, hsub1, hk1in, hk2in⟩ :=
    insertEdge_success le e used hlene le1 e1 used1 hie
  obtain ⟨hn, ho, hu, hd⟩ := hInv
  have hpre1 : key1 e ≠ 0 → key1 e ∉ used := by
    intro hk hmem
    exact hc1 ⟨fun h0 => hk ((key1_zero e).mpr h0), hmem⟩
  have hpre2 : key2 e ≠ 0 → key2 e ∉ used := by
    intro hk hmem
    exact hc2 ⟨fun h0 => hk ((key2_zero e).mpr h0), hmem⟩
  have hInv1 : Inv used1 (updateClass classes cid le1) := by
    refine ⟨?_, ?_, ?_, ?_⟩
    · intro q hq
      rcases updateClass_mem _ _ _ _ hq with ⟨rfl, -⟩ | ⟨hqin, -⟩
      · exact hne1
      · exact hn q hqin
    · intro q hq
      rcases updateClass_mem _ _ _ _ hq with ⟨rfl, -⟩ | ⟨hqin, -⟩
      · exact hopen1
      · exact ho q hqin
    · intro q hq k hk
      rcases updateClass_mem _ _ _ _ hq with ⟨rfl, -⟩ | ⟨hqin, -⟩
      · rcases huses1 k hk with h | h
        · exact hsub1 _ (hu _ hle_mem k h)
        · rcases h with rfl | rfl
          · exact hk1in
          · exact hk2in
      · exact hsub1 _ (hu q hqin k hk)
    · rintro q hq r hr hqr k ⟨hkq, hkr⟩
      rcases updateClass_mem _ _ _ _ hq with ⟨rfl, -⟩ | ⟨hqin, hqne⟩ <;>
        rcases updateClass_mem _ _ _ _ hr with ⟨rfl, -⟩ | ⟨hrin, hrne⟩
      · exact hqr rfl
      · rcases huses1 k hkq with h | h
        · exact hd _ hle_mem r hrin hqr k ⟨h, hkr⟩
        · have hk0 : k ≠ 0 := hkr.1
          have hku : k ∈ used := hu r hrin k hkr
          rcases h with rfl | rfl
          · exact hpre1 hk0 hku
          · exact hpre2 hk0 hku
      · rcases huses1 k hkr with h | h
        · exact hd q hqin _ hle_mem hqne k ⟨hkq, h⟩
        · have hk0 : k ≠ 0 := hkq.1
          have hku : k ∈ used := hu q hqin k hkq
          rcases h with rfl | rfl
          · exact hpre1 hk0 hku
          · exact hpre2 hk0 hku
      · exact hd q hqin r hrin hqr k ⟨hkq, hkr⟩
  have hfold := mergeFold_preserve used1 cid (List.range clscnt)
    (le1, updateClass classes cid le1)
    (by dsimp only; rw [updateClass_idem]; exact hInv1)
    (by dsimp only; exact ⟨le1, updateClass_mem_self _ _ _ ⟨le, hle_mem⟩⟩)
  unfold mergeLists
  exact hfold.1

/-- One iteration of the greedy loop preserves the invariant, for any
edge whose two block ids differ (as every edge of the weight table
does). -/
theorem processEdge_preserve (minW : ℚ) (adj : List (Edge × ℚ))
    (st : AsmState) (p : Edge × ℚ) (hbid : p.1.bid1 ≠ p.1.bid2)
    (hInv : Inv st.mapUsed st.mapClasses) :
    Inv (processEdge minW adj st p).mapUsed
      (processEdge minW adj st p).mapClasses := by
  obtain ⟨used, classes, clscnt⟩ := st
  simp only [processEdge]
  cases hm : mapFind adj { p.1 with weight := p.2 } with
  | none =>
      dsimp only
      simp only [if_mem_key1, if_mem_key2]
      by_cases hw : p.2 < minW
      · rw [if_pos hw]
        exact hInv
      rw [if_neg hw]
      by_cases hc1 : p.1.bid1 ≠ 0 ∧ key1 p.1 ∈ used
      · rw [if_pos hc1]
        exact hInv
      rw [if_neg hc1]
      by_cases hc2 : p.1.bid2 ≠ 0 ∧ key2 p.1 ∈ used
      · rw [if_pos hc2]
        exact hInv
      rw [if_neg hc2]
      cases hs : scanChains { p.1 with weight := p.2 } used classes with
      | none =>
          dsimp only
          exact new_chain_inv_applied used classes clscnt _
            (by exact hbid) hInv (by exact hc1) (by exact hc2)
      | some r =>
          obtain ⟨cid, res, le1, e1, used1⟩ := r
          dsimp only
          split_ifs with hres
          · exact success_inv used classes clscnt _ cid res le1 e1 used1
              hInv (by exact hc1) (by exact hc2) hs hres
          · exact hInv
  | some s =>
      dsimp only
      simp only [if_mem_key1, if_mem_key2]
      by_cases hw : p.2 < minW
      · rw [if_pos hw]
        exact hInv
      rw [if_neg hw]
      by_cases hc1 : p.1.bid1 ≠ 0 ∧ key1 p.1 ∈ used
      · rw [if_pos hc1]
        exact hInv
      rw [if_neg hc1]
      by_cases hc2 : p.1.bid2 ≠ 0 ∧ key2 p.1 ∈ used
      · rw [if_pos hc2]
        exact hInv
      rw [if_neg hc2]
      cases hs : scanChains { p.1 with weight := p.2, score1 := s }
          used classes with
      | none =>
          dsimp only
          exact new_chain_inv_applied used classes clscnt _
            (by exact hbid) hInv (by exact hc1) (by exact hc2)
      | some r =>
          obtain ⟨cid, res, le1, e1, used1⟩ := r
          dsimp only
          split_ifs with hres
          · exact success_inv used classes clscnt _ cid res le1 e1 used1
              hInv (by exact hc1) (by exact hc2) hs hres
          · exact hInv

/-- Membership in the map after an assignment: every entry either keeps
a key already present or carries the inserted key. -/
theorem mem_mapAssign (k : Edge) (v : ℚ) :
    ∀ (m : List (Edge × ℚ)), ∀ p ∈ mapAssign m k v,
      (∃ q ∈ m, p.1 = q.1) ∨ p.1 = k := by
  intro m
  induction m with
  | nil =>
      intro p hp
      simp only [mapAssign, List.mem_singleton] at hp
      exact Or.inr (by rw [hp])
  | cons q rest ih =>
      obtain ⟨k1, v1⟩ := q
      intro p hp
      simp only [mapAssign] at hp
      split_ifs at hp with h1 h2
      · rcases List.mem_cons.mp hp with rfl | hp'
        · exact Or.inr rfl
        · exact Or.inl ⟨p, hp', rfl⟩
      · rcases List.mem_cons.mp hp with rfl | hp'
        · exact Or.inl ⟨(k1, v1), List.mem_cons_self _ _, rfl⟩
        · exact Or.inl ⟨p, List.mem_cons_of_mem _ hp', rfl⟩
      · rcases List.mem_cons.mp hp with rfl | hp'
        · exact Or.inl ⟨(k1, v1), List.mem_cons_self _ _, rfl⟩
        · rcases ih p hp' with ⟨q', hq', he⟩ | he
          · exact Or.inl ⟨q', List.mem_cons_of_mem _ hq', he⟩
          · exact Or.inr he

/-- Every edge of the weight table joins two distinct block ids: the
`i == j` pairs are skipped by the weight loop. -/
theorem buildWeights_bids (adj : List (Edge × ℚ)) (numblocks : ℕ) :
    ∀ p ∈ buildWeights adj numblocks, p.1.bid1 ≠ p.1.bid2 := by
  unfold buildWeights
  refine foldl_preserve
    (fun m : List (Edge × ℚ) => ∀ p ∈ m, p.1.bid1 ≠ p.1.bid2) _ ?_ _ _
    (by simp)
  intro m i hm
  dsimp only
  refine foldl_preserve
    (fun m : List (Edge × ℚ) => ∀ p ∈ m, p.1.bid1 ≠ p.1.bid2) _ ?_ _ _ hm
  intro m' j hm'
  dsimp only
  by_cases hij : i = j
  · rw [if_pos hij]
    exact hm'
  rw [if_neg hij]
  refine foldl_preserve
    (fun m : List (Edge × ℚ) => ∀ p ∈ m, p.1.bid1 ≠ p.1.bid2) _ ?_ _ _ hm'
  intro m'' dd hm''
  dsimp only
  split_ifs with hw
  · intro p hp
    rcases mem_mapAssign _ _ m'' p hp with ⟨q, hq, he⟩ | he
    · rw [he]
      exact hm'' q hq
    · rw [he]
      simp only [Edge.make]
      intro hcast
      exact hij (by exact_mod_cast hcast)
  · exact hm''

/-- The sort introduces no new entries. -/
theorem sortEdges_sub :
    ∀ (l acc : List (Edge × ℚ)),
      ∀ p ∈ l.foldl (fun acc p => insertSorted p acc) acc,
        p ∈ acc ∨ p ∈ l := by
  intro l
  induction l with
  | nil =>
      intro acc p hp
      exact Or.inl hp
  | cons q l ih =>
      intro acc p hp
      rcases ih (insertSorted q acc) p hp with h | h
      · rcases (mem_insertSorted q acc p).mp h with rfl | h'
        · exact Or.inr (List.mem_cons_self _ _)
        · exact Or.inl h'
      · exact Or.inr (List.mem_cons_of_mem _ h)

/-- Every edge the greedy loop visits joins two distinct block ids. -/
theorem vecEdges_bids (input : List (ℤ × ℤ × ℚ)) :
    ∀ p ∈ vecEdgesOf input, p.1.bid1 ≠ p.1.bid2 := by
  intro p hp
  unfold vecEdgesOf sortEdges at hp
  rcases sortEdges_sub _ _ p hp with h | h
  · simp at h
  · exact buildWeights_bids _ _ p h

/-- Fold preservation where the step property is only needed on members
of the folded list. -/
theorem foldl_preserve_mem {α β : Type} (P : α → Prop) (f : α → β → α) :
    ∀ (l : List β), (∀ a, ∀ b ∈ l, P a → P (f a b)) →
      ∀ (a : α), P a → P (l.foldl f a) := by
  intro l
  induction l with
  | nil =>
      intro _ a ha
      exact ha
  | cons b l ih =>
      intro hf a ha
      exact ih (fun a' b' hb' ha' => hf a' b' (List.mem_cons_of_mem _ hb') ha')
        (f a b) (hf a b (List.mem_cons_self _ _) ha)

/-- The greedy loop invariant holds of the final assembler state, for
every input and threshold. -/
theorem assemble_preserve (minW : ℚ) (input : List (ℤ × ℤ × ℚ)) :
    Inv (assemble minW input).mapUsed (assemble minW input).mapClasses := by
  unfold assemble
  refine foldl_preserve_mem
    (fun st : AsmState => Inv st.mapUsed st.mapClasses) _ _ ?_ _ ?_
  · intro st p hp hst
    exact processEdge_preserve minW (buildAdjScores input) st p
      (vecEdges_bids input p hp) hst
  · unfold Inv
    refine ⟨?_, ?_, ?_, ?_⟩ <;> intro q hq <;> simp at hq

/-- C4: for every input edge set and threshold, no chain emitted by the
assembler is a cycle: an edge whose insertion would close a chain into
a cycle is rejected (never added, never seeding a new chain), a merge
that would join a chain's two open ends is refused, and so every class
of the final state is an open path. -/
theorem assemble_no_cycles (minW : ℚ) (input : List (ℤ × ℤ × ℚ))
    (p : ℕ × List Edge)
    (hp : p ∈ (assemble minW input).mapClasses) :
    ¬ isClosed p.2 :=
  (assemble_preserve minW input).2.1 p hp

theorem assemble_no_cycles_witness :
    (1, [(⟨1, 1, 2, 1, 1, 1⟩ : Edge)]) ∈ (assemble 0 [(1, 2, 1)]).mapClasses ∧
    ¬ isClosed [(⟨1, 1, 2, 1, 1, 1⟩ : Edge)] :=
  ⟨by decide,
   assemble_no_cycles 0 [(1, 2, 1)] (1, [(⟨1, 1, 2, 1, 1, 1⟩ : Edge)])
     (by decide)⟩

/-- C5: every non-sentinel element-end is consumed by at most one
chain: each end a final chain consumes is registered in the global
used-ends registry, and chains of distinct class ids consume disjoint
sets of non-sentinel element-ends. -/
theorem assemble_disjoint_ends (minW : ℚ) (input : List (ℤ × ℤ × ℚ))
    (p q : ℕ × List Edge)
    (hp : p ∈ (assemble minW input).mapClasses)
    (hq : q ∈ (assemble minW input).mapClasses)
    (hne : p.1 ≠ q.1) (k : ℤ) :
    (chainUses p.2 k → k ∈ (assemble minW input).mapUsed) ∧
    ¬ (chainUses p.2 k ∧ chainUses q.2 k) :=
  ⟨fun h => (assemble_preserve minW input).2.2.1 p hp k h,
   (assemble_preserve minW input).2.2.2 p hp q hq hne k⟩

theorem assemble_disjoint_ends_witness :
    ((1, [(⟨1, 1, 2, 1, 1, 1⟩ : Edge)]) ∈
        (assemble 0 [(1, 2, 1), (3, 4, 1)]).mapClasses ∧
      (2, [(⟨3, 1, 4, 1, 1, 1⟩ : Edge)]) ∈
        (assemble 0 [(1, 2, 1), (3, 4, 1)]).mapClasses ∧
      ((1, [(⟨1, 1, 2, 1, 1, 1⟩ : Edge)]) : ℕ × List Edge).1 ≠
        ((2, [(⟨3, 1, 4, 1, 1, 1⟩ : Edge)]) : ℕ × List Edge).1) ∧
    ((chainUses [(⟨1, 1, 2, 1, 1, 1⟩ : Edge)] (-1) →
        (-1 : ℤ) ∈ (assemble 0 [(1, 2, 1), (3, 4, 1)]).mapUsed) ∧
      ¬ (chainUses [(⟨1, 1, 2, 1, 1, 1⟩ : Edge)] (-1) ∧
         chainUses [(⟨3, 1, 4, 1, 1, 1⟩ : Edge)] (-1))) :=
  ⟨⟨by decide, by decide, by decide⟩,
   assemble_disjoint_ends 0 [(1, 2, 1), (3, 4, 1)]
     (1, [(⟨1, 1, 2, 1, 1, 1⟩ : Edge)]) (2, [(⟨3, 1, 4, 1, 1, 1⟩ : Edge)])
     (by decide) (by decide) (by decide) (-1)⟩

end Deschrambler
